import Mathlib

/-!
Verification of the block-level maintenance phase of the Sia consensus
engine (`modules/consensus/maintenance.go`).

The Go code mutates a `ConsensusSet` (three maps: mature siacoin outputs,
height-bucketed delayed siacoin outputs, file contracts) and appends diff
records to the current `blockNode`.  We embed the maps as association
lists, `build.DEBUG` as a boolean parameter, and a `panic` as an `Option`
result of `none`.  Go iterates maps in an unspecified order, so the two
map iterations in the file (the delayed bucket drained by
`applyMaturedSiacoinOutputs`, and the contract scan in
`applyFileContractMaintenance`) are parameterised by an order-choosing
function; a run of the Go code corresponds to some choice whose output is
a permutation of the map entries.
-/

set_option autoImplicit false

namespace Sia

universe u v

/-- A siacoin output: a currency value plus the hash of its spending
condition.  Mirrors `types.SiacoinOutput` as used by `maintenance.go`. -/
structure SiacoinOutput where
  value : Nat
  unlockHash : Nat
deriving DecidableEq, Repr

/-- Modelled from the spec: output identifiers are content-derived and
deterministic (`types.MinerPayoutID`, `types.StorageProofOutputID` are not
in the sources).  A miner payout id is derived from the block and the
payout position; a storage proof output id from the contract id, the
proof-missed tag and the payout position; other outputs (created by
transaction processing, out of scope) get their own constructor. -/
inductive OutputID where
  | minerPayoutOf (blockID : Nat) (i : Nat)
  | storageProofOutputOf (fcid : Nat) (missed : Bool) (i : Nat)
  | txnOutput (n : Nat)
deriving DecidableEq, Repr

/-- A file contract: the deadline height `windowEnd` and the penalty
payouts paid out when the proof window ends without a storage proof.
Mirrors the fields of `types.FileContract` read by `maintenance.go`. -/
structure FileContract where
  windowEnd : Nat
  missedProofOutputs : List SiacoinOutput
deriving DecidableEq, Repr

/-- Direction of a diff: `modules.DiffApply` / `modules.DiffRevert`. -/
inductive DiffDirection where
  | apply
  | revert
deriving DecidableEq, Repr

/-- Mirrors `modules.SiacoinOutputDiff`. -/
structure SiacoinOutputDiff where
  direction : DiffDirection
  id : OutputID
  siacoinOutput : SiacoinOutput
deriving DecidableEq, Repr

/-- Mirrors `modules.DelayedSiacoinOutputDiff`. -/
structure DelayedSiacoinOutputDiff where
  direction : DiffDirection
  id : OutputID
  siacoinOutput : SiacoinOutput
  maturityHeight : Nat
deriving DecidableEq, Repr

/-- Mirrors `modules.FileContractDiff`. -/
structure FileContractDiff where
  direction : DiffDirection
  id : Nat
  fileContract : FileContract
deriving DecidableEq, Repr

/-- The part of `types.Block` read by `maintenance.go`: an identifying
value (standing for the block hash) and the ordered miner payouts. -/
structure Block where
  blockID : Nat
  minerPayouts : List SiacoinOutput
deriving DecidableEq, Repr

/-- Modelled from the spec: `types.Block.MinerPayoutID` derives a payout
identifier deterministically from the block and the payout position. -/
def Block.minerPayoutID (b : Block) (i : Nat) : OutputID :=
  OutputID.minerPayoutOf b.blockID i

/-- Modelled from the spec: `types.FileContractID.StorageProofOutputID`
derives an output identifier from the contract id, the proof-missed tag
and the payout position. -/
def storageProofOutputID (fcid : Nat) (missed : Bool) (i : Nat) : OutputID :=
  OutputID.storageProofOutputOf fcid missed i

/-- Mirrors the fields of `blockNode` used by `maintenance.go`: the block,
its chain height, and the three diff logs accumulated for this block. -/
structure blockNode where
  block : Block
  height : Nat
  siacoinOutputDiffs : List SiacoinOutputDiff
  delayedSiacoinOutputDiffs : List DelayedSiacoinOutputDiff
  fileContractDiffs : List FileContractDiff
deriving DecidableEq, Repr

section AssocOps

variable {κ : Type u} {α : Type v} [DecidableEq κ]

/-- Go map lookup on an association list: the first binding wins. -/
def lkp (k : κ) : List (κ × α) → Option α
  | [] => none
  | e :: rest => if e.1 = k then some e.2 else lkp k rest

/-- Go `delete` on an association list: remove every binding of `k`. -/
def mdel (k : κ) : List (κ × α) → List (κ × α)
  | [] => []
  | e :: rest => if e.1 = k then mdel k rest else e :: mdel k rest

/-- Go map assignment `m[k] = v` on an association list. -/
def mset (k : κ) (v : α) (m : List (κ × α)) : List (κ × α) :=
  (k, v) :: mdel k m

end AssocOps

/-- The map of mature siacoin outputs (`cs.siacoinOutputs`). -/
abbrev MMap := List (OutputID × SiacoinOutput)

/-- One height bucket of the delayed-output index. -/
abbrev Bucket := List (OutputID × SiacoinOutput)

/-- The height-indexed delayed-output map (`cs.delayedSiacoinOutputs`). -/
abbrev DMap := List (Nat × Bucket)

/-- The file contract map (`cs.fileContracts`). -/
abbrev FCMap := List (Nat × FileContract)

/-- Reading `cs.delayedSiacoinOutputs[h]` in Go: a missing height yields
the zero value, a nil map, which behaves as the empty bucket. -/
def getBucket (h : Nat) (d : DMap) : Bucket :=
  (lkp h d).getD []

/-- Inserting into the bucket at height `h`, creating the bucket when it
is absent.  Modelled from the spec: the commit operation writes the entry
into the ledger's delayed-bucket index. -/
def dInsert (h : Nat) (k : OutputID) (v : SiacoinOutput) (d : DMap) : DMap :=
  mset h (mset k v (getBucket h d)) d

/-- Go `delete(cs.delayedSiacoinOutputs[h], k)`: a delete on the zero
value of a missing bucket is a no-op and does not create the bucket. -/
def dDelete (h : Nat) (k : OutputID) (d : DMap) : DMap :=
  match lkp h d with
  | none => d
  | some b => mset h (mdel k b) d

/-- The state mutated by `maintenance.go`: the three maps of the
`ConsensusSet` this file touches. -/
structure ConsensusSet where
  siacoinOutputs : MMap
  delayedSiacoinOutputs : DMap
  fileContracts : FCMap
deriving DecidableEq, Repr

/-- Modelled from the spec: `commitSiacoinOutputDiff` (in `diffs.go`, not
among the sources) applies a diff to the mature-output map; committing a
diff in its own direction inserts the recorded output, committing it
against its direction removes it. -/
def commitSiacoinOutputDiff (m : MMap) (scod : SiacoinOutputDiff)
    (dir : DiffDirection) : MMap :=
  if scod.direction = dir then mset scod.id scod.siacoinOutput m
  else mdel scod.id m

/-- Modelled from the spec: `commitDelayedSiacoinOutputDiff` applies a
diff to the delayed-output index at the diff's maturity height; in its
own direction it inserts the entry, against its direction it removes
the entry. -/
def commitDelayedSiacoinOutputDiff (d : DMap) (dscod : DelayedSiacoinOutputDiff)
    (dir : DiffDirection) : DMap :=
  if dscod.direction = dir then
    dInsert dscod.maturityHeight dscod.id dscod.siacoinOutput d
  else dDelete dscod.maturityHeight dscod.id d

/-- Modelled from the spec: `commitFileContractDiff` applies a diff to
the contract map; in its own direction it inserts the recorded contract,
against its direction it removes it. -/
def commitFileContractDiff (m : FCMap) (fcd : FileContractDiff)
    (dir : DiffDirection) : FCMap :=
  if fcd.direction = dir then mset fcd.id fcd.fileContract m
  else mdel fcd.id m

/-- Modelled from the spec: the reorg path undoes a block by committing
the recorded siacoin output diffs with direction `DiffRevert`, in exact
reverse order.  `List.foldr` applies the last recorded diff first. -/
def revertSiacoinOutputDiffs (log : List SiacoinOutputDiff) (m : MMap) : MMap :=
  log.foldr (fun scod m => commitSiacoinOutputDiff m scod DiffDirection.revert) m

/-- Modelled from the spec: reverse-order replay of the delayed-output
diff log with direction `DiffRevert`. -/
def revertDelayedSiacoinOutputDiffs (log : List DelayedSiacoinOutputDiff)
    (d : DMap) : DMap :=
  log.foldr (fun dscod d => commitDelayedSiacoinOutputDiff d dscod DiffDirection.revert) d

/-- Modelled from the spec: reverse-order replay of the file contract
diff log with direction `DiffRevert`. -/
def revertFileContractDiffs (log : List FileContractDiff) (m : FCMap) : FCMap :=
  log.foldr (fun fcd m => commitFileContractDiff m fcd DiffDirection.revert) m

/-- The common loop body of `applyMinerPayouts` (lines 21-46) and of the
payout loop of `applyMissedStorageProof` (lines 119-141): walk an indexed
payout list; for each payout derive its id with `mkId`, under DEBUG panic
when the id is already in the target delayed bucket or in the mature-output
map, otherwise append a `DiffApply` delayed diff and commit it.  `mature`
is only read; `mh` is the maturity height `bn.height + types.MaturityDelay`.
A `none` result is a Go `panic`. -/
def delayedPayoutLoop (debug : Bool) (mkId : Nat → OutputID) (mh : Nat) (mature : MMap) :
    List (Nat × SiacoinOutput) → DMap → List DelayedSiacoinOutputDiff →
    Option (DMap × List DelayedSiacoinOutputDiff)
  | [], d, log => some (d, log)
  | ip :: rest, d, log =>
    let pid := mkId ip.1
    if debug && ((lkp pid (getBucket mh d)).isSome || (lkp pid mature).isSome) then
      none
    else
      let dscod : DelayedSiacoinOutputDiff :=
        ⟨DiffDirection.apply, pid, ip.2, mh⟩
      delayedPayoutLoop debug mkId mh mature rest
        (commitDelayedSiacoinOutputDiff d dscod DiffDirection.apply)
        (log ++ [dscod])

/-- `applyMinerPayouts` (maintenance.go lines 20-48): every miner payout
of the block becomes a delayed siacoin output maturing at
`bn.height + MaturityDelay`, with a `DiffApply` delayed diff appended to
the block node. -/
def applyMinerPayouts (debug : Bool) (md : Nat) (cs : ConsensusSet) (bn : blockNode) :
    Option (ConsensusSet × blockNode) :=
  (delayedPayoutLoop debug bn.block.minerPayoutID (bn.height + md) cs.siacoinOutputs
      bn.block.minerPayouts.enum cs.delayedSiacoinOutputs bn.delayedSiacoinOutputDiffs).map
    fun r =>
      ({ cs with delayedSiacoinOutputs := r.1 },
       { bn with delayedSiacoinOutputDiffs := r.2 })

/-- The loop of `applyMaturedSiacoinOutputs` (lines 61-89): for each
entry of the bucket at `h` (visited in the order the Go runtime chose),
under DEBUG panic when the id is already mature; otherwise append a
`DiffApply` siacoin output diff and commit it (insert into the mature
map), then append a `DiffRevert` delayed diff and commit it with
direction `DiffApply` (delete from the bucket at `h`). -/
def maturedLoop (debug : Bool) (h : Nat) :
    List (OutputID × SiacoinOutput) → MMap → DMap →
    List SiacoinOutputDiff → List DelayedSiacoinOutputDiff →
    Option (MMap × DMap × List SiacoinOutputDiff × List DelayedSiacoinOutputDiff)
  | [], mature, d, slog, dlog => some (mature, d, slog, dlog)
  | e :: rest, mature, d, slog, dlog =>
    if debug && (lkp e.1 mature).isSome then
      none
    else
      let scod : SiacoinOutputDiff := ⟨DiffDirection.apply, e.1, e.2⟩
      let dscod : DelayedSiacoinOutputDiff := ⟨DiffDirection.revert, e.1, e.2, h⟩
      maturedLoop debug h rest
        (commitSiacoinOutputDiff mature scod DiffDirection.apply)
        (commitDelayedSiacoinOutputDiff d dscod DiffDirection.apply)
        (slog ++ [scod]) (dlog ++ [dscod])

/-- `applyMaturedSiacoinOutputs` (lines 53-99): a no-op unless
`bn.height > MaturityDelay`; otherwise drain the bucket at `bn.height`
into the mature-output map, then under DEBUG panic if the bucket is not
empty, and delete the bucket from the height index.  `ordm` chooses the
Go map iteration order of the bucket. -/
def applyMaturedSiacoinOutputs (debug : Bool) (md : Nat) (ordm : Bucket → Bucket)
    (cs : ConsensusSet) (bn : blockNode) : Option (ConsensusSet × blockNode) :=
  if !(decide (bn.height > md)) then some (cs, bn)
  else
    (maturedLoop debug bn.height (ordm (getBucket bn.height cs.delayedSiacoinOutputs))
        cs.siacoinOutputs cs.delayedSiacoinOutputs
        bn.siacoinOutputDiffs bn.delayedSiacoinOutputDiffs).bind
      fun r =>
        if debug && !((getBucket bn.height r.2.1).length == 0) then none
        else
          some ({ cs with
                    siacoinOutputs := r.1,
                    delayedSiacoinOutputs := mdel bn.height r.2.1 },
                { bn with
                    siacoinOutputDiffs := r.2.2.1,
                    delayedSiacoinOutputDiffs := r.2.2.2 })

/-- The Go zero value of `types.FileContract`, produced by a lookup of a
missing key. -/
def zeroFileContract : FileContract := ⟨0, []⟩

/-- `applyMissedStorageProof` (lines 103-153): look up the contract;
under DEBUG panic when it is missing or does not expire at `bn.height`;
turn each missed proof output into a delayed output maturing at
`bn.height + MaturityDelay` (via `delayedPayoutLoop`); finally delete the
contract and append a `DiffRevert` file contract diff recording it. -/
def applyMissedStorageProof (debug : Bool) (md : Nat) (cs : ConsensusSet)
    (bn : blockNode) (fcid : Nat) : Option (ConsensusSet × blockNode) :=
  let fcOpt := lkp fcid cs.fileContracts
  if debug && !fcOpt.isSome then none
  else
    let fc := fcOpt.getD zeroFileContract
    if debug && !(fc.windowEnd == bn.height) then none
    else
      (delayedPayoutLoop debug (storageProofOutputID fcid true) (bn.height + md)
          cs.siacoinOutputs fc.missedProofOutputs.enum
          cs.delayedSiacoinOutputs bn.delayedSiacoinOutputDiffs).map
        fun r =>
          ({ cs with
               delayedSiacoinOutputs := r.1,
               fileContracts := mdel fcid cs.fileContracts },
           { bn with
               delayedSiacoinOutputDiffs := r.2,
               fileContractDiffs :=
                 bn.fileContractDiffs ++ [⟨DiffDirection.revert, fcid, fc⟩] })

/-- The scan loop of `applyFileContractMaintenance` (lines 162-175): walk
the contract map (in the order the Go runtime chose) collecting the ids of
contracts whose window ends at `h`; under DEBUG panic when a contract's
window ended below `h`.  The scan never mutates the consensus set. -/
def expiredScan (debug : Bool) (h : Nat) : List (Nat × FileContract) → Option (List Nat)
  | [] => some []
  | e :: rest =>
    if debug && decide (e.2.windowEnd < h) then none
    else
      (expiredScan debug h rest).map
        fun l => if e.2.windowEnd == h then e.1 :: l else l

/-- The second loop of `applyFileContractMaintenance` (lines 176-178):
invoke `applyMissedStorageProof` once per collected contract id. -/
def missedProofFold (debug : Bool) (md : Nat) :
    List Nat → ConsensusSet → blockNode → Option (ConsensusSet × blockNode)
  | [], cs, bn => some (cs, bn)
  | fcid :: rest, cs, bn =>
    (applyMissedStorageProof debug md cs bn fcid).bind
      fun r => missedProofFold debug md rest r.1 r.2

/-- `applyFileContractMaintenance` (lines 158-181): first enumerate the
contract map once, collecting the expiring contract ids; only after the
enumeration completed, handle each collected id.  `ordc` chooses the Go
map iteration order of the contract map. -/
def applyFileContractMaintenance (debug : Bool) (md : Nat) (ordc : FCMap → FCMap)
    (cs : ConsensusSet) (bn : blockNode) : Option (ConsensusSet × blockNode) :=
  (expiredScan debug bn.height (ordc cs.fileContracts)).bind
    fun expired => missedProofFold debug md expired cs bn

/-- `applyMaintenance` (lines 186-190): the three phases in their fixed
order. -/
def applyMaintenance (debug : Bool) (md : Nat) (ordm : Bucket → Bucket)
    (ordc : FCMap → FCMap) (cs : ConsensusSet) (bn : blockNode) :
    Option (ConsensusSet × blockNode) :=
  (applyMinerPayouts debug md cs bn).bind fun r1 =>
    (applyMaturedSiacoinOutputs debug md ordm r1.1 r1.2).bind fun r2 =>
      applyFileContractMaintenance debug md ordc r2.1 r2.2

/-- A map-iteration order chooser is valid when it returns a permutation
of the entries, which is all the Go language specification guarantees. -/
def IterOrder {α : Type v} (f : List α → List α) : Prop :=
  ∀ l, (f l).Perm l

/-- The keys of an association list are pairwise distinct.  Holds for any
association list that denotes a Go map. -/
def keysNodup {κ : Type u} {α : Type v} (m : List (κ × α)) : Prop :=
  (m.map Prod.fst).Nodup

/-- Extensional equality of two association lists as maps: every key
binds the same value.  Two Go maps with the same lookups are the same
map, so this is map equality. -/
def MEq {κ : Type u} {α : Type v} [DecidableEq κ] (m₁ m₂ : List (κ × α)) : Prop :=
  ∀ k, lkp k m₁ = lkp k m₂

/-- Bucket-for-bucket extensional equality of two delayed-output maps:
at every height the bucket has the same contents (an absent bucket has
empty contents, matching Go's zero value). -/
def DEq (d₁ d₂ : DMap) : Prop :=
  ∀ h k, lkp k (getBucket h d₁) = lkp k (getBucket h d₂)

/-- Repeated insertion into the bucket at `mh`: the cumulative effect of
a successful `delayedPayoutLoop` on the delayed-output map. -/
def insertAll (mh : Nat) (ps : List (OutputID × SiacoinOutput)) (d : DMap) : DMap :=
  ps.foldl (fun d e => dInsert mh e.1 e.2 d) d

/-- Repeated deletion from the bucket at `h`: the cumulative effect of a
successful `maturedLoop` on the delayed-output map. -/
def deleteAll (h : Nat) (ks : List OutputID) (d : DMap) : DMap :=
  ks.foldl (fun d k => dDelete h k d) d

/-- Repeated map assignment: the cumulative effect of a successful
`maturedLoop` on the mature-output map. -/
def msetAll {κ : Type u} {α : Type v} [DecidableEq κ]
    (ps : List (κ × α)) (m : List (κ × α)) : List (κ × α) :=
  ps.foldl (fun m e => mset e.1 e.2 m) m

/-- Repeated map deletion: the cumulative effect of a successful
`missedProofFold` on the contract map. -/
def mdelAll {κ : Type u} {α : Type v} [DecidableEq κ]
    (ks : List κ) (m : List (κ × α)) : List (κ × α) :=
  ks.foldl (fun m k => mdel k m) m

/-- The delayed diffs a successful `applyMinerPayouts` appends for a
block whose payouts mature at `mh`. -/
def minerPayoutDiffs (b : Block) (mh : Nat) : List DelayedSiacoinOutputDiff :=
  b.minerPayouts.enum.map fun ip => ⟨DiffDirection.apply, b.minerPayoutID ip.1, ip.2, mh⟩

/-- The delayed diffs a successful `applyMissedStorageProof` appends for
contract `fcid` with body `fc`, maturing at `mh`. -/
def missedProofDiffs (fcid : Nat) (fc : FileContract) (mh : Nat) :
    List DelayedSiacoinOutputDiff :=
  fc.missedProofOutputs.enum.map
    fun ip => ⟨DiffDirection.apply, storageProofOutputID fcid true ip.1, ip.2, mh⟩

/-- The entries a payout list contributes to the bucket at its maturity
height: position `i` maps to the id `mkId i`. -/
def payoutEntries (mkId : Nat → OutputID) (payouts : List SiacoinOutput) :
    List (OutputID × SiacoinOutput) :=
  payouts.enum.map fun ip => (mkId ip.1, ip.2)

/-- Global invariant 1 of the spec: no identifier is simultaneously in
the mature-output map and in any delayed bucket. -/
def Disj (cs : ConsensusSet) : Prop :=
  ∀ k h, (lkp k cs.siacoinOutputs).isSome = true →
    lkp k (getBucket h cs.delayedSiacoinOutputs) = none

/-- No identifier occurs in two delayed buckets at distinct heights. -/
def UniqueAcrossBuckets (d : DMap) : Prop :=
  ∀ k h₁ h₂, h₁ ≠ h₂ → (lkp k (getBucket h₁ d)).isSome = true →
    lkp k (getBucket h₂ d) = none

/-- The derived miner payout identifiers of block `b` occur in no delayed
bucket of `d`. -/
def PayoutsFresh (b : Block) (d : DMap) : Prop :=
  ∀ ip ∈ b.minerPayouts.enum, ∀ h,
    lkp (b.minerPayoutID ip.1) (getBucket h d) = none

/-- Every bucket of the delayed-output map has pairwise distinct keys;
true of any state whose buckets denote Go maps. -/
def BucketsWF (d : DMap) : Prop :=
  ∀ h, keysNodup (getBucket h d)

/-- The siacoin output diffs a successful `applyMaturedSiacoinOutputs`
appends when it visits the bucket entries `b` in order. -/
def maturedSiacoinDiffs (b : Bucket) : List SiacoinOutputDiff :=
  b.map fun e => ⟨DiffDirection.apply, e.1, e.2⟩

/-- The delayed output diffs a successful `applyMaturedSiacoinOutputs`
appends when it drains the bucket at height `h` in the order `b`. -/
def maturedDelayedDiffs (h : Nat) (b : Bucket) : List DelayedSiacoinOutputDiff :=
  b.map fun e => ⟨DiffDirection.revert, e.1, e.2, h⟩

/-- The contract-map entries whose window ends exactly at `h`, in the
order they occur in `l`. -/
def expiredOf (h : Nat) (l : FCMap) : FCMap :=
  l.filter fun e => e.2.windowEnd == h

/-- The contracts stored under the given ids (a missing id yields the Go
zero value, which cannot happen for ids collected by the scan). -/
def contractsOf (m : FCMap) (ids : List Nat) : List (Nat × FileContract) :=
  ids.map fun i => (i, (lkp i m).getD zeroFileContract)

/-- The delayed output diffs a successful `applyFileContractMaintenance`
appends for the expired contracts `l`. -/
def contractDelayedDiffs (mh : Nat) (l : List (Nat × FileContract)) :
    List DelayedSiacoinOutputDiff :=
  l.flatMap fun e => missedProofDiffs e.1 e.2 mh

/-- The file contract diffs a successful `applyFileContractMaintenance`
appends for the expired contracts `l`. -/
def contractRevertDiffs (l : List (Nat × FileContract)) : List FileContractDiff :=
  l.map fun e => ⟨DiffDirection.revert, e.1, e.2⟩

/-- The cumulative delayed-map effect of handling the expired contracts
`l`: the missed proof payouts of each are inserted at maturity `mh`. -/
def insertAllContracts (mh : Nat) (l : List (Nat × FileContract)) (d : DMap) : DMap :=
  l.foldl
    (fun d e =>
      insertAll mh (payoutEntries (storageProofOutputID e.1 true) e.2.missedProofOutputs) d)
    d

/-! ### Basic association-map lemmas -/

section AssocLemmas

variable {κ : Type u} {α : Type v} [DecidableEq κ]

@[simp] theorem lkp_nil (k : κ) : lkp k ([] : List (κ × α)) = none := rfl

theorem lkp_mdel (k k' : κ) (m : List (κ × α)) :
    lkp k (mdel k' m) = if k' = k then none else lkp k m := by
  induction m with
  | nil => simp [mdel, lkp]
  | cons e rest ih =>
    rw [mdel]
    by_cases he : e.1 = k'
    · rw [if_pos he, ih, lkp]
      by_cases hk : k' = k
      · simp [hk]
      · have hek : ¬ (e.1 = k) := fun h => hk (he.symm.trans h)
        simp [hk, hek]
    · rw [if_neg he, lkp, lkp]
      by_cases hek : e.1 = k
      · have hk : ¬ (k' = k) := fun h => he (hek.trans h.symm)
        simp [hek, hk]
      · simp [hek, ih]

theorem lkp_mset (k k' : κ) (v : α) (m : List (κ × α)) :
    lkp k (mset k' v m) = if k' = k then some v else lkp k m := by
  rw [mset, lkp]
  by_cases h : k' = k
  · simp [h]
  · simp [h, lkp_mdel]

theorem lkp_some_mem {k : κ} {v : α} {m : List (κ × α)}
    (h : lkp k m = some v) : (k, v) ∈ m := by
  induction m with
  | nil => simp [lkp] at h
  | cons e rest ih =>
    obtain ⟨e1, e2⟩ := e
    rw [lkp] at h
    by_cases he : (e1, e2).1 = k
    · rw [if_pos he] at h
      have h2 : e2 = v := Option.some.inj h
      have h1 : e1 = k := he
      subst h1
      subst h2
      exact List.mem_cons_self _ _
    · rw [if_neg he] at h
      exact List.mem_cons_of_mem _ (ih h)

theorem mem_lkp_of_keysNodup {k : κ} {v : α} {m : List (κ × α)}
    (hm : (k, v) ∈ m) (hn : keysNodup m) : lkp k m = some v := by
  induction m with
  | nil => simp at hm
  | cons e rest ih =>
    rcases List.mem_cons.1 hm with h | h
    · subst h
      simp [lkp]
    · have hk : e.1 ≠ k := by
        intro he
        have hmem : k ∈ rest.map Prod.fst := List.mem_map.2 ⟨(k, v), h, rfl⟩
        rw [keysNodup, List.map_cons, List.nodup_cons] at hn
        exact hn.1 (he ▸ hmem)
      rw [lkp, if_neg hk]
      exact ih h (by rw [keysNodup, List.map_cons, List.nodup_cons] at hn; exact hn.2)

theorem lkp_isSome_mem_keys {k : κ} {m : List (κ × α)}
    (h : (lkp k m).isSome = true) : k ∈ m.map Prod.fst := by
  rcases Option.isSome_iff_exists.1 h with ⟨v, hv⟩
  exact List.mem_map.2 ⟨(k, v), lkp_some_mem hv, rfl⟩

theorem lkp_eq_none_of_not_mem_keys {k : κ} {m : List (κ × α)}
    (h : k ∉ m.map Prod.fst) : lkp k m = none := by
  cases hv : lkp k m with
  | none => rfl
  | some v => exact absurd (List.mem_map.2 ⟨(k, v), lkp_some_mem hv, rfl⟩) h

theorem mdel_sublist (k : κ) (m : List (κ × α)) : (mdel k m).Sublist m := by
  induction m with
  | nil => simp [mdel]
  | cons e rest ih =>
    rw [mdel]
    by_cases he : e.1 = k
    · rw [if_pos he]
      exact ih.cons e
    · rw [if_neg he]
      exact ih.cons₂ e

theorem keysNodup_mdel (k : κ) {m : List (κ × α)} (h : keysNodup m) :
    keysNodup (mdel k m) := by
  have hsub : ((mdel k m).map Prod.fst).Sublist (m.map Prod.fst) :=
    (mdel_sublist k m).map Prod.fst
  exact hsub.nodup h

theorem not_mem_keys_mdel (k : κ) (m : List (κ × α)) :
    k ∉ (mdel k m).map Prod.fst := by
  induction m with
  | nil => simp [mdel]
  | cons e rest ih =>
    rw [mdel]
    by_cases he : e.1 = k
    · rwa [if_pos he]
    · rw [if_neg he]
      simp only [List.map_cons, List.mem_cons]
      rintro (h | h)
      · exact he h.symm
      · exact ih h

theorem keysNodup_mset (k : κ) (v : α) {m : List (κ × α)} (h : keysNodup m) :
    keysNodup (mset k v m) := by
  rw [mset, keysNodup, List.map_cons, List.nodup_cons]
  exact ⟨not_mem_keys_mdel k m, keysNodup_mdel k h⟩

theorem isSome_false_eq_none {o : Option α} (h : o.isSome = false) : o = none := by
  cases o
  · rfl
  · simp at h

theorem mdel_eq_self_of_none {k : κ} {m : List (κ × α)} (h : lkp k m = none) :
    mdel k m = m := by
  induction m with
  | nil => rfl
  | cons e rest ih =>
    rw [lkp] at h
    by_cases he : e.1 = k
    · rw [if_pos he] at h
      exact Option.noConfusion h
    · rw [if_neg he] at h
      rw [mdel, if_neg he, ih h]

end AssocLemmas

/-! ### Bucket-level lemmas -/

theorem getBucket_mset_self (h : Nat) (b : Bucket) (d : DMap) :
    getBucket h (mset h b d) = b := by
  rw [getBucket, lkp_mset]
  simp

theorem getBucket_mset_ne {h h' : Nat} (hne : h ≠ h') (b : Bucket) (d : DMap) :
    getBucket h' (mset h b d) = getBucket h' d := by
  rw [getBucket, lkp_mset, if_neg hne, getBucket]

theorem getBucket_dInsert_self (h : Nat) (k : OutputID) (v : SiacoinOutput) (d : DMap) :
    getBucket h (dInsert h k v d) = mset k v (getBucket h d) := by
  rw [dInsert, getBucket_mset_self]

theorem getBucket_dInsert_ne {h h' : Nat} (hne : h ≠ h') (k : OutputID)
    (v : SiacoinOutput) (d : DMap) :
    getBucket h' (dInsert h k v d) = getBucket h' d := by
  rw [dInsert, getBucket_mset_ne hne]

theorem lkp_getBucket_dInsert (h h' : Nat) (k k' : OutputID) (v : SiacoinOutput) (d : DMap) :
    lkp k' (getBucket h' (dInsert h k v d)) =
      if h = h' ∧ k = k' then some v else lkp k' (getBucket h' d) := by
  by_cases hh : h = h'
  · subst hh
    rw [getBucket_dInsert_self, lkp_mset]
    by_cases hk : k = k'
    · simp [hk]
    · simp [hk]
  · rw [getBucket_dInsert_ne hh]
    simp [hh]

theorem getBucket_dDelete_ne {h h' : Nat} (hne : h ≠ h') (k : OutputID) (d : DMap) :
    getBucket h' (dDelete h k d) = getBucket h' d := by
  rw [dDelete]
  cases hb : lkp h d with
  | none => rfl
  | some b => rw [getBucket_mset_ne hne]

theorem lkp_getBucket_dDelete (h h' : Nat) (k k' : OutputID) (d : DMap) :
    lkp k' (getBucket h' (dDelete h k d)) =
      if h = h' ∧ k = k' then none else lkp k' (getBucket h' d) := by
  by_cases hh : h = h'
  · subst hh
    rw [dDelete]
    cases hb : lkp h d with
    | none =>
      have hbk : getBucket h d = [] := by rw [getBucket, hb]; rfl
      rw [hbk]
      simp
    | some b =>
      have hbk : getBucket h d = b := by rw [getBucket, hb]; rfl
      rw [getBucket_mset_self, lkp_mdel, hbk]
      by_cases hk : k = k'
      · simp [hk]
      · simp [hk]
  · rw [getBucket_dDelete_ne hh]
    simp [hh]

theorem keysNodup_getBucket_dInsert {d : DMap} (hwf : ∀ h, keysNodup (getBucket h d))
    (h₀ : Nat) (k : OutputID) (v : SiacoinOutput) :
    ∀ h, keysNodup (getBucket h (dInsert h₀ k v d)) := by
  intro h
  by_cases hh : h₀ = h
  · subst hh
    rw [getBucket_dInsert_self]
    exact keysNodup_mset _ _ (hwf h₀)
  · rw [getBucket_dInsert_ne hh]
    exact hwf h

/-! ### Fold-level lemmas -/

theorem insertAll_nil (mh : Nat) (d : DMap) : insertAll mh [] d = d := rfl

theorem insertAll_cons (mh : Nat) (e : OutputID × SiacoinOutput)
    (ps : List (OutputID × SiacoinOutput)) (d : DMap) :
    insertAll mh (e :: ps) d = insertAll mh ps (dInsert mh e.1 e.2 d) := rfl

theorem getBucket_insertAll_ne {mh h : Nat} (hne : h ≠ mh)
    (ps : List (OutputID × SiacoinOutput)) (d : DMap) :
    getBucket h (insertAll mh ps d) = getBucket h d := by
  induction ps generalizing d with
  | nil => rfl
  | cons e rest ih =>
    rw [insertAll_cons, ih, getBucket_dInsert_ne (fun hx => hne hx.symm)]

theorem lkp_insertAll_of_not_key {mh : Nat} {k : OutputID}
    {ps : List (OutputID × SiacoinOutput)} (hk : ∀ e ∈ ps, e.1 ≠ k)
    (h : Nat) (d : DMap) :
    lkp k (getBucket h (insertAll mh ps d)) = lkp k (getBucket h d) := by
  induction ps generalizing d with
  | nil => rfl
  | cons e rest ih =>
    rw [insertAll_cons,
      ih (fun e' he' => hk e' (List.mem_cons_of_mem _ he')),
      lkp_getBucket_dInsert]
    have : ¬(mh = h ∧ e.1 = k) := fun hx => hk e (List.mem_cons_self _ _) hx.2
    rw [if_neg this]

theorem lkp_insertAll_of_mem {mh : Nat} {k : OutputID} {v : SiacoinOutput}
    {ps : List (OutputID × SiacoinOutput)} (hn : keysNodup ps) (hm : (k, v) ∈ ps)
    (d : DMap) :
    lkp k (getBucket mh (insertAll mh ps d)) = some v := by
  induction ps generalizing d with
  | nil => simp at hm
  | cons e rest ih =>
    rw [keysNodup, List.map_cons, List.nodup_cons] at hn
    rcases List.mem_cons.1 hm with h | h
    · subst h
      rw [insertAll_cons]
      have hk : ∀ e' ∈ rest, e'.1 ≠ k := by
        intro e' he' hx
        exact hn.1 (hx ▸ List.mem_map.2 ⟨e', he', rfl⟩)
      rw [lkp_insertAll_of_not_key hk, lkp_getBucket_dInsert]
      simp
    · rw [insertAll_cons]
      exact ih hn.2 h _

theorem keysNodup_getBucket_insertAll {d : DMap} (hwf : ∀ h, keysNodup (getBucket h d))
    (mh : Nat) (ps : List (OutputID × SiacoinOutput)) :
    ∀ h, keysNodup (getBucket h (insertAll mh ps d)) := by
  induction ps generalizing d with
  | nil => exact hwf
  | cons e rest ih =>
    rw [insertAll_cons]
    exact ih (keysNodup_getBucket_dInsert hwf mh e.1 e.2)

theorem deleteAll_nil (h : Nat) (d : DMap) : deleteAll h [] d = d := rfl

theorem deleteAll_cons (h : Nat) (k : OutputID) (ks : List OutputID) (d : DMap) :
    deleteAll h (k :: ks) d = deleteAll h ks (dDelete h k d) := rfl

theorem getBucket_deleteAll_ne {h h' : Nat} (hne : h ≠ h') (ks : List OutputID) (d : DMap) :
    getBucket h' (deleteAll h ks d) = getBucket h' d := by
  induction ks generalizing d with
  | nil => rfl
  | cons k rest ih =>
    rw [deleteAll_cons, ih, getBucket_dDelete_ne hne]

theorem lkp_getBucket_deleteAll (h : Nat) (k : OutputID) (ks : List OutputID) (d : DMap) :
    lkp k (getBucket h (deleteAll h ks d)) =
      if k ∈ ks then none else lkp k (getBucket h d) := by
  induction ks generalizing d with
  | nil => rw [deleteAll_nil]; simp
  | cons k₀ rest ih =>
    rw [deleteAll_cons, ih, lkp_getBucket_dDelete]
    by_cases hk : k ∈ rest
    · simp [hk]
    · by_cases hk₀ : k₀ = k
      · simp [hk, hk₀]
      · have : ¬ k ∈ k₀ :: rest := by
          intro hx
          rcases List.mem_cons.1 hx with hx | hx
          · exact hk₀ hx.symm
          · exact hk hx
        simp [hk, hk₀, this]

theorem msetAll_nil {κ : Type u} {α : Type v} [DecidableEq κ] (m : List (κ × α)) :
    msetAll [] m = m := rfl

theorem msetAll_cons {κ : Type u} {α : Type v} [DecidableEq κ] (e : κ × α)
    (ps : List (κ × α)) (m : List (κ × α)) :
    msetAll (e :: ps) m = msetAll ps (mset e.1 e.2 m) := rfl

theorem lkp_msetAll_of_not_key {κ : Type u} {α : Type v} [DecidableEq κ] {k : κ}
    {ps : List (κ × α)} (hk : ∀ e ∈ ps, e.1 ≠ k) (m : List (κ × α)) :
    lkp k (msetAll ps m) = lkp k m := by
  induction ps generalizing m with
  | nil => rfl
  | cons e rest ih =>
    rw [msetAll_cons, ih (fun e' he' => hk e' (List.mem_cons_of_mem _ he')), lkp_mset,
      if_neg (hk e (List.mem_cons_self _ _))]

theorem lkp_msetAll_of_mem {κ : Type u} {α : Type v} [DecidableEq κ] {k : κ} {v : α}
    {ps : List (κ × α)} (hn : keysNodup ps) (hm : (k, v) ∈ ps) (m : List (κ × α)) :
    lkp k (msetAll ps m) = some v := by
  induction ps generalizing m with
  | nil => simp at hm
  | cons e rest ih =>
    rw [keysNodup, List.map_cons, List.nodup_cons] at hn
    rcases List.mem_cons.1 hm with h | h
    · subst h
      rw [msetAll_cons]
      have hk : ∀ e' ∈ rest, e'.1 ≠ k := by
        intro e' he' hx
        exact hn.1 (hx ▸ List.mem_map.2 ⟨e', he', rfl⟩)
      rw [lkp_msetAll_of_not_key hk, lkp_mset]
      simp
    · rw [msetAll_cons]
      exact ih hn.2 h _

theorem mdelAll_nil {κ : Type u} {α : Type v} [DecidableEq κ] (m : List (κ × α)) :
    mdelAll [] m = m := rfl

theorem mdelAll_cons {κ : Type u} {α : Type v} [DecidableEq κ] (k : κ) (ks : List κ)
    (m : List (κ × α)) :
    mdelAll (k :: ks) m = mdelAll ks (mdel k m) := rfl

theorem lkp_mdelAll {κ : Type u} {α : Type v} [DecidableEq κ] (k : κ) (ks : List κ)
    (m : List (κ × α)) :
    lkp k (mdelAll ks m) = if k ∈ ks then none else lkp k m := by
  induction ks generalizing m with
  | nil => rw [mdelAll_nil]; simp
  | cons k₀ rest ih =>
    rw [mdelAll_cons, ih, lkp_mdel]
    by_cases hk : k ∈ rest
    · simp [hk]
    · by_cases hk₀ : k₀ = k
      · simp [hk, hk₀]
      · have : ¬ k ∈ k₀ :: rest := by
          intro hx
          rcases List.mem_cons.1 hx with hx | hx
          · exact hk₀ hx.symm
          · exact hk hx
        simp [hk, hk₀, this]

/-! ### Reverse replay unfolding -/

theorem revertD_nil (X : DMap) : revertDelayedSiacoinOutputDiffs [] X = X := rfl

theorem revertD_cons (df : DelayedSiacoinOutputDiff) (L : List DelayedSiacoinOutputDiff)
    (X : DMap) :
    revertDelayedSiacoinOutputDiffs (df :: L) X =
      commitDelayedSiacoinOutputDiff (revertDelayedSiacoinOutputDiffs L X) df
        DiffDirection.revert := rfl

theorem revertD_append (L₁ L₂ : List DelayedSiacoinOutputDiff) (X : DMap) :
    revertDelayedSiacoinOutputDiffs (L₁ ++ L₂) X =
      revertDelayedSiacoinOutputDiffs L₁ (revertDelayedSiacoinOutputDiffs L₂ X) := by
  rw [revertDelayedSiacoinOutputDiffs, revertDelayedSiacoinOutputDiffs,
    revertDelayedSiacoinOutputDiffs, List.foldr_append]

theorem revertS_nil (X : MMap) : revertSiacoinOutputDiffs [] X = X := rfl

theorem revertS_cons (df : SiacoinOutputDiff) (L : List SiacoinOutputDiff) (X : MMap) :
    revertSiacoinOutputDiffs (df :: L) X =
      commitSiacoinOutputDiff (revertSiacoinOutputDiffs L X) df DiffDirection.revert := rfl

theorem revertS_append (L₁ L₂ : List SiacoinOutputDiff) (X : MMap) :
    revertSiacoinOutputDiffs (L₁ ++ L₂) X =
      revertSiacoinOutputDiffs L₁ (revertSiacoinOutputDiffs L₂ X) := by
  rw [revertSiacoinOutputDiffs, revertSiacoinOutputDiffs, revertSiacoinOutputDiffs,
    List.foldr_append]

theorem revertF_nil (X : FCMap) : revertFileContractDiffs [] X = X := rfl

theorem revertF_cons (df : FileContractDiff) (L : List FileContractDiff) (X : FCMap) :
    revertFileContractDiffs (df :: L) X =
      commitFileContractDiff (revertFileContractDiffs L X) df DiffDirection.revert := rfl

theorem revertF_append (L₁ L₂ : List FileContractDiff) (X : FCMap) :
    revertFileContractDiffs (L₁ ++ L₂) X =
      revertFileContractDiffs L₁ (revertFileContractDiffs L₂ X) := by
  rw [revertFileContractDiffs, revertFileContractDiffs, revertFileContractDiffs,
    List.foldr_append]

/-! ### Commit reduction on concrete diffs -/

theorem commitD_apply_apply (d : DMap) (i : OutputID) (v : SiacoinOutput) (mh : Nat) :
    commitDelayedSiacoinOutputDiff d ⟨DiffDirection.apply, i, v, mh⟩ DiffDirection.apply =
      dInsert mh i v d := by
  rw [commitDelayedSiacoinOutputDiff, if_pos rfl]

theorem commitD_apply_revert (d : DMap) (i : OutputID) (v : SiacoinOutput) (mh : Nat) :
    commitDelayedSiacoinOutputDiff d ⟨DiffDirection.apply, i, v, mh⟩ DiffDirection.revert =
      dDelete mh i d := by
  rw [commitDelayedSiacoinOutputDiff, if_neg (fun h => nomatch h)]

theorem commitD_revert_apply (d : DMap) (i : OutputID) (v : SiacoinOutput) (mh : Nat) :
    commitDelayedSiacoinOutputDiff d ⟨DiffDirection.revert, i, v, mh⟩ DiffDirection.apply =
      dDelete mh i d := by
  rw [commitDelayedSiacoinOutputDiff, if_neg (fun h => nomatch h)]

theorem commitD_revert_revert (d : DMap) (i : OutputID) (v : SiacoinOutput) (mh : Nat) :
    commitDelayedSiacoinOutputDiff d ⟨DiffDirection.revert, i, v, mh⟩ DiffDirection.revert =
      dInsert mh i v d := by
  rw [commitDelayedSiacoinOutputDiff, if_pos rfl]

theorem commitS_apply_apply (m : MMap) (i : OutputID) (v : SiacoinOutput) :
    commitSiacoinOutputDiff m ⟨DiffDirection.apply, i, v⟩ DiffDirection.apply =
      mset i v m := by
  rw [commitSiacoinOutputDiff, if_pos rfl]

theorem commitS_apply_revert (m : MMap) (i : OutputID) (v : SiacoinOutput) :
    commitSiacoinOutputDiff m ⟨DiffDirection.apply, i, v⟩ DiffDirection.revert =
      mdel i m := by
  rw [commitSiacoinOutputDiff, if_neg (fun h => nomatch h)]

theorem commitF_revert_revert (m : FCMap) (i : Nat) (fc : FileContract) :
    commitFileContractDiff m ⟨DiffDirection.revert, i, fc⟩ DiffDirection.revert =
      mset i fc m := by
  rw [commitFileContractDiff, if_pos rfl]

/-! ### The shared payout loop -/

theorem delayedPayoutLoop_some {debug : Bool} {mkId : Nat → OutputID} {mh : Nat}
    {mature : MMap} {l : List (Nat × SiacoinOutput)} {d : DMap}
    {log : List DelayedSiacoinOutputDiff} {r : DMap × List DelayedSiacoinOutputDiff}
    (hs : delayedPayoutLoop debug mkId mh mature l d log = some r) :
    r.1 = insertAll mh (l.map fun ip => (mkId ip.1, ip.2)) d ∧
    r.2 = log ++ l.map (fun ip =>
      (⟨DiffDirection.apply, mkId ip.1, ip.2, mh⟩ : DelayedSiacoinOutputDiff)) ∧
    (debug = true → ∀ ip ∈ l, lkp (mkId ip.1) mature = none) := by
  induction l generalizing d log with
  | nil =>
    rw [delayedPayoutLoop] at hs
    cases hs
    exact ⟨rfl, by simp, fun _ ip hip => absurd hip (List.not_mem_nil ip)⟩
  | cons ip rest ih =>
    simp only [delayedPayoutLoop] at hs
    split at hs
    · exact Option.noConfusion hs
    · rename_i hc
      obtain ⟨h1, h2, h3⟩ := ih hs
      refine ⟨?_, ?_, ?_⟩
      · rw [h1, List.map_cons, insertAll_cons, commitD_apply_apply]
      · rw [h2, List.map_cons, List.append_assoc]
        rfl
      · intro hd ip' hip'
        rcases List.mem_cons.1 hip' with h | h
        · subst hd
          simp only [Bool.true_and, Bool.or_eq_true, not_or, Bool.not_eq_true] at hc
          subst h
          exact isSome_false_eq_none hc.2
        · exact h3 hd ip' h

theorem delayedPayoutLoop_rt {mkId : Nat → OutputID} {mh : Nat} {mature : MMap}
    {l : List (Nat × SiacoinOutput)} {d : DMap} {log : List DelayedSiacoinOutputDiff}
    {r : DMap × List DelayedSiacoinOutputDiff}
    (hs : delayedPayoutLoop true mkId mh mature l d log = some r) :
    ∀ X, DEq X r.1 →
      DEq (revertDelayedSiacoinOutputDiffs
        (l.map fun ip =>
          (⟨DiffDirection.apply, mkId ip.1, ip.2, mh⟩ : DelayedSiacoinOutputDiff)) X) d := by
  induction l generalizing d log with
  | nil =>
    rw [delayedPayoutLoop] at hs
    cases hs
    intro X hX
    exact hX
  | cons ip rest ih =>
    simp only [delayedPayoutLoop] at hs
    split at hs
    · exact Option.noConfusion hs
    · rename_i hc
      intro X hX
      have hY := ih hs X hX
      rw [commitD_apply_apply] at hY
      rw [List.map_cons, revertD_cons, commitD_apply_revert]
      simp only [Bool.true_and, Bool.or_eq_true, not_or, Bool.not_eq_true] at hc
      intro h k
      rw [lkp_getBucket_dDelete]
      by_cases hcc : mh = h ∧ mkId ip.1 = k
      · rw [if_pos hcc]
        have := isSome_false_eq_none hc.1
        rw [← hcc.1, ← hcc.2, this]
      · rw [if_neg hcc, hY h k, lkp_getBucket_dInsert, if_neg hcc]

/-! ### The maturation loop -/

theorem maturedSiacoinDiffs_cons (e : OutputID × SiacoinOutput) (l : Bucket) :
    maturedSiacoinDiffs (e :: l) =
      (⟨DiffDirection.apply, e.1, e.2⟩ : SiacoinOutputDiff) :: maturedSiacoinDiffs l := rfl

theorem maturedDelayedDiffs_cons (h : Nat) (e : OutputID × SiacoinOutput) (l : Bucket) :
    maturedDelayedDiffs h (e :: l) =
      (⟨DiffDirection.revert, e.1, e.2, h⟩ : DelayedSiacoinOutputDiff) ::
        maturedDelayedDiffs h l := rfl

theorem maturedLoop_some {debug : Bool} {h : Nat} {l : List (OutputID × SiacoinOutput)}
    {mature : MMap} {d : DMap} {slog : List SiacoinOutputDiff}
    {dlog : List DelayedSiacoinOutputDiff}
    {r : MMap × DMap × List SiacoinOutputDiff × List DelayedSiacoinOutputDiff}
    (hs : maturedLoop debug h l mature d slog dlog = some r) :
    r.1 = msetAll l mature ∧
    r.2.1 = deleteAll h (l.map Prod.fst) d ∧
    r.2.2.1 = slog ++ maturedSiacoinDiffs l ∧
    r.2.2.2 = dlog ++ maturedDelayedDiffs h l := by
  induction l generalizing mature d slog dlog with
  | nil =>
    rw [maturedLoop] at hs
    cases hs
    exact ⟨rfl, rfl, by simp [maturedSiacoinDiffs], by simp [maturedDelayedDiffs]⟩
  | cons e rest ih =>
    simp only [maturedLoop] at hs
    split at hs
    · exact Option.noConfusion hs
    · rw [commitS_apply_apply, commitD_revert_apply] at hs
      obtain ⟨h1, h2, h3, h4⟩ := ih hs
      refine ⟨?_, ?_, ?_, ?_⟩
      · rw [h1, msetAll_cons]
      · rw [h2, List.map_cons, deleteAll_cons]
      · rw [h3, maturedSiacoinDiffs_cons, List.append_assoc]
        rfl
      · rw [h4, maturedDelayedDiffs_cons, List.append_assoc]
        rfl

theorem maturedLoop_rt_mature {h : Nat} {l : List (OutputID × SiacoinOutput)}
    {mature : MMap} {d : DMap} {slog : List SiacoinOutputDiff}
    {dlog : List DelayedSiacoinOutputDiff}
    {r : MMap × DMap × List SiacoinOutputDiff × List DelayedSiacoinOutputDiff}
    (hs : maturedLoop true h l mature d slog dlog = some r) :
    ∀ Y, MEq Y r.1 → MEq (revertSiacoinOutputDiffs (maturedSiacoinDiffs l) Y) mature := by
  induction l generalizing mature d slog dlog with
  | nil =>
    rw [maturedLoop] at hs
    cases hs
    intro Y hY
    exact hY
  | cons e rest ih =>
    simp only [maturedLoop] at hs
    split at hs
    · exact Option.noConfusion hs
    · rename_i hc
      rw [commitS_apply_apply, commitD_revert_apply] at hs
      intro Y hY
      have hZ := ih hs Y hY
      rw [maturedSiacoinDiffs_cons, revertS_cons, commitS_apply_revert]
      simp only [Bool.true_and, Bool.not_eq_true] at hc
      intro k
      rw [lkp_mdel]
      by_cases hk : e.1 = k
      · rw [if_pos hk, ← hk, isSome_false_eq_none hc]
      · rw [if_neg hk, hZ k, lkp_mset, if_neg hk]

theorem maturedLoop_rt_delayed {debug : Bool} {h : Nat}
    {l : List (OutputID × SiacoinOutput)} {mature : MMap} {d : DMap}
    {slog : List SiacoinOutputDiff} {dlog : List DelayedSiacoinOutputDiff}
    {r : MMap × DMap × List SiacoinOutputDiff × List DelayedSiacoinOutputDiff}
    (hvals : ∀ e ∈ l, lkp e.1 (getBucket h d) = some e.2)
    (hnd : (l.map Prod.fst).Nodup)
    (hs : maturedLoop debug h l mature d slog dlog = some r) :
    ∀ X, DEq X r.2.1 →
      DEq (revertDelayedSiacoinOutputDiffs (maturedDelayedDiffs h l) X) d := by
  induction l generalizing mature d slog dlog with
  | nil =>
    rw [maturedLoop] at hs
    cases hs
    intro X hX
    exact hX
  | cons e rest ih =>
    simp only [maturedLoop] at hs
    split at hs
    · exact Option.noConfusion hs
    · rw [commitS_apply_apply, commitD_revert_apply] at hs
      intro X hX
      have hne : ∀ e' ∈ rest, e.1 ≠ e'.1 := by
        intro e' he' hx
        rw [List.map_cons, List.nodup_cons] at hnd
        exact hnd.1 (hx ▸ List.mem_map.2 ⟨e', he', rfl⟩)
      have hvals' : ∀ e' ∈ rest, lkp e'.1 (getBucket h (dDelete h e.1 d)) = some e'.2 := by
        intro e' he'
        rw [lkp_getBucket_dDelete, if_neg (fun hx => hne e' he' hx.2)]
        exact hvals e' (List.mem_cons_of_mem _ he')
      have hnd' : (rest.map Prod.fst).Nodup := by
        rw [List.map_cons, List.nodup_cons] at hnd
        exact hnd.2
      have hZ := ih hvals' hnd' hs X hX
      rw [maturedDelayedDiffs_cons, revertD_cons, commitD_revert_revert]
      intro h' k
      rw [lkp_getBucket_dInsert]
      by_cases hcc : h = h' ∧ e.1 = k
      · rw [if_pos hcc, ← hcc.1, ← hcc.2, hvals e (List.mem_cons_self _ _)]
      · rw [if_neg hcc, hZ h' k, lkp_getBucket_dDelete, if_neg hcc]

/-! ### Wrapper lemmas: applyMinerPayouts -/

theorem applyMinerPayouts_some {debug : Bool} {md : Nat} {cs : ConsensusSet}
    {bn : blockNode} {r : ConsensusSet × blockNode}
    (hs : applyMinerPayouts debug md cs bn = some r) :
    r.1.siacoinOutputs = cs.siacoinOutputs ∧
    r.1.fileContracts = cs.fileContracts ∧
    r.1.delayedSiacoinOutputs =
      insertAll (bn.height + md)
        (payoutEntries bn.block.minerPayoutID bn.block.minerPayouts)
        cs.delayedSiacoinOutputs ∧
    r.2.block = bn.block ∧ r.2.height = bn.height ∧
    r.2.siacoinOutputDiffs = bn.siacoinOutputDiffs ∧
    r.2.fileContractDiffs = bn.fileContractDiffs ∧
    r.2.delayedSiacoinOutputDiffs =
      bn.delayedSiacoinOutputDiffs ++ minerPayoutDiffs bn.block (bn.height + md) ∧
    (debug = true → ∀ ip ∈ bn.block.minerPayouts.enum,
      lkp (bn.block.minerPayoutID ip.1) cs.siacoinOutputs = none) := by
  rw [applyMinerPayouts] at hs
  cases hl : delayedPayoutLoop debug bn.block.minerPayoutID (bn.height + md)
      cs.siacoinOutputs bn.block.minerPayouts.enum cs.delayedSiacoinOutputs
      bn.delayedSiacoinOutputDiffs with
  | none => rw [hl] at hs; exact Option.noConfusion hs
  | some p =>
    rw [hl] at hs
    obtain ⟨h1, h2, h3⟩ := delayedPayoutLoop_some hl
    cases hs
    exact ⟨rfl, rfl, h1, rfl, rfl, rfl, rfl, h2, h3⟩

theorem applyMinerPayouts_rt {md : Nat} {cs : ConsensusSet} {bn : blockNode}
    {r : ConsensusSet × blockNode}
    (hs : applyMinerPayouts true md cs bn = some r) :
    ∀ X, DEq X r.1.delayedSiacoinOutputs →
      DEq (revertDelayedSiacoinOutputDiffs (minerPayoutDiffs bn.block (bn.height + md)) X)
        cs.delayedSiacoinOutputs := by
  rw [applyMinerPayouts] at hs
  cases hl : delayedPayoutLoop true bn.block.minerPayoutID (bn.height + md)
      cs.siacoinOutputs bn.block.minerPayouts.enum cs.delayedSiacoinOutputs
      bn.delayedSiacoinOutputDiffs with
  | none => rw [hl] at hs; exact Option.noConfusion hs
  | some p =>
    rw [hl] at hs
    cases hs
    exact delayedPayoutLoop_rt hl

/-! ### Wrapper lemmas: applyMaturedSiacoinOutputs -/

theorem applyMaturedSiacoinOutputs_noop {debug : Bool} {md : Nat} {ordm : Bucket → Bucket}
    {cs : ConsensusSet} {bn : blockNode} (hle : bn.height ≤ md) :
    applyMaturedSiacoinOutputs debug md ordm cs bn = some (cs, bn) := by
  have hd : decide (bn.height > md) = false := decide_eq_false (by omega)
  rw [applyMaturedSiacoinOutputs, hd]
  rfl

theorem applyMaturedSiacoinOutputs_some {debug : Bool} {md : Nat} {ordm : Bucket → Bucket}
    {cs : ConsensusSet} {bn : blockNode} {r : ConsensusSet × blockNode}
    (hgt : bn.height > md)
    (hs : applyMaturedSiacoinOutputs debug md ordm cs bn = some r) :
    r.1.siacoinOutputs =
      msetAll (ordm (getBucket bn.height cs.delayedSiacoinOutputs)) cs.siacoinOutputs ∧
    r.1.fileContracts = cs.fileContracts ∧
    r.1.delayedSiacoinOutputs =
      mdel bn.height
        (deleteAll bn.height
          ((ordm (getBucket bn.height cs.delayedSiacoinOutputs)).map Prod.fst)
          cs.delayedSiacoinOutputs) ∧
    r.2.block = bn.block ∧ r.2.height = bn.height ∧
    r.2.fileContractDiffs = bn.fileContractDiffs ∧
    r.2.siacoinOutputDiffs =
      bn.siacoinOutputDiffs ++
        maturedSiacoinDiffs (ordm (getBucket bn.height cs.delayedSiacoinOutputs)) ∧
    r.2.delayedSiacoinOutputDiffs =
      bn.delayedSiacoinOutputDiffs ++
        maturedDelayedDiffs bn.height (ordm (getBucket bn.height cs.delayedSiacoinOutputs)) := by
  have hd : decide (bn.height > md) = true := decide_eq_true hgt
  rw [applyMaturedSiacoinOutputs, hd, Bool.not_true, if_neg Bool.false_ne_true] at hs
  cases hl : maturedLoop debug bn.height (ordm (getBucket bn.height cs.delayedSiacoinOutputs))
      cs.siacoinOutputs cs.delayedSiacoinOutputs bn.siacoinOutputDiffs
      bn.delayedSiacoinOutputDiffs with
  | none => rw [hl] at hs; exact Option.noConfusion hs
  | some p =>
    rw [hl] at hs
    simp only [Option.some_bind] at hs
    split at hs
    · exact Option.noConfusion hs
    · obtain ⟨h1, h2, h3, h4⟩ := maturedLoop_some hl
      cases hs
      exact ⟨h1, rfl, by rw [h2], rfl, rfl, rfl, h3, h4⟩

theorem getBucket_mdel_self (h : Nat) (d : DMap) : getBucket h (mdel h d) = [] := by
  rw [getBucket, lkp_mdel]
  simp

theorem getBucket_mdel_ne {h h' : Nat} (hne : h ≠ h') (d : DMap) :
    getBucket h' (mdel h d) = getBucket h' d := by
  rw [getBucket, lkp_mdel, if_neg hne, getBucket]

theorem append_eq_self_nil {α : Type u} {a b : List α} (h : a ++ b = a) : b = [] := by
  have h2 := congrArg List.length h
  simp at h2
  exact h2

theorem isSome_eq_some_getD {α : Type u} {o : Option α} (h : o.isSome = true) (z : α) :
    o = some (o.getD z) := by
  cases o
  · simp at h
  · rfl

theorem applyMaturedSiacoinOutputs_rt_delayed {md : Nat} {ordm : Bucket → Bucket}
    {cs : ConsensusSet} {bn : blockNode} {r : ConsensusSet × blockNode} {debug : Bool}
    (hperm : (ordm (getBucket bn.height cs.delayedSiacoinOutputs)).Perm
      (getBucket bn.height cs.delayedSiacoinOutputs))
    (hbwf : keysNodup (getBucket bn.height cs.delayedSiacoinOutputs))
    (hs : applyMaturedSiacoinOutputs debug md ordm cs bn = some r) :
    ∀ A, r.2.delayedSiacoinOutputDiffs = bn.delayedSiacoinOutputDiffs ++ A →
      ∀ X, DEq X r.1.delayedSiacoinOutputs →
        DEq (revertDelayedSiacoinOutputDiffs A X) cs.delayedSiacoinOutputs := by
  have hvals : ∀ e ∈ ordm (getBucket bn.height cs.delayedSiacoinOutputs),
      lkp e.1 (getBucket bn.height cs.delayedSiacoinOutputs) = some e.2 := by
    intro e he
    obtain ⟨e1, e2⟩ := e
    exact mem_lkp_of_keysNodup (hperm.mem_iff.1 he) hbwf
  have hnd : ((ordm (getBucket bn.height cs.delayedSiacoinOutputs)).map Prod.fst).Nodup :=
    ((hperm.map Prod.fst).nodup_iff).2 hbwf
  by_cases hgt : bn.height > md
  · have hd : decide (bn.height > md) = true := decide_eq_true hgt
    rw [applyMaturedSiacoinOutputs, hd, Bool.not_true, if_neg Bool.false_ne_true] at hs
    cases hl : maturedLoop debug bn.height
        (ordm (getBucket bn.height cs.delayedSiacoinOutputs)) cs.siacoinOutputs
        cs.delayedSiacoinOutputs bn.siacoinOutputDiffs bn.delayedSiacoinOutputDiffs with
    | none => rw [hl] at hs; exact Option.noConfusion hs
    | some p =>
      rw [hl] at hs
      simp only [Option.some_bind] at hs
      split at hs
      · exact Option.noConfusion hs
      · obtain ⟨h1, h2, h3, h4⟩ := maturedLoop_some hl
        cases hs
        intro A hA X hX
        have hAeq : A = maturedDelayedDiffs bn.height
            (ordm (getBucket bn.height cs.delayedSiacoinOutputs)) := by
          apply List.append_cancel_left
          rw [← hA]
          exact h4
        subst hAeq
        have hX' : DEq X p.2.1 := by
          intro h' k
          rw [hX h' k]
          by_cases hh : bn.height = h'
          · subst hh
            rw [getBucket_mdel_self, h2, lkp_getBucket_deleteAll]
            by_cases hk : k ∈ (ordm (getBucket bn.height cs.delayedSiacoinOutputs)).map Prod.fst
            · rw [if_pos hk]
              rfl
            · rw [if_neg hk]
              cases hv : lkp k (getBucket bn.height cs.delayedSiacoinOutputs) with
              | none => rfl
              | some v =>
                exact absurd (List.mem_map.2
                  ⟨(k, v), hperm.mem_iff.2 (lkp_some_mem hv), rfl⟩) hk
          · rw [getBucket_mdel_ne hh]
        exact maturedLoop_rt_delayed hvals hnd hl X hX'
  · have hle : bn.height ≤ md := by omega
    rw [applyMaturedSiacoinOutputs_noop hle] at hs
    cases hs
    intro A hA X hX
    have hAeq : A = [] := append_eq_self_nil hA.symm
    subst hAeq
    exact hX

theorem applyMaturedSiacoinOutputs_rt_mature {md : Nat} {ordm : Bucket → Bucket}
    {cs : ConsensusSet} {bn : blockNode} {r : ConsensusSet × blockNode}
    (hs : applyMaturedSiacoinOutputs true md ordm cs bn = some r) :
    ∀ S, r.2.siacoinOutputDiffs = bn.siacoinOutputDiffs ++ S →
      ∀ Y, MEq Y r.1.siacoinOutputs →
        MEq (revertSiacoinOutputDiffs S Y) cs.siacoinOutputs := by
  by_cases hgt : bn.height > md
  · have hd : decide (bn.height > md) = true := decide_eq_true hgt
    rw [applyMaturedSiacoinOutputs, hd, Bool.not_true, if_neg Bool.false_ne_true] at hs
    cases hl : maturedLoop true bn.height
        (ordm (getBucket bn.height cs.delayedSiacoinOutputs)) cs.siacoinOutputs
        cs.delayedSiacoinOutputs bn.siacoinOutputDiffs bn.delayedSiacoinOutputDiffs with
    | none => rw [hl] at hs; exact Option.noConfusion hs
    | some p =>
      rw [hl] at hs
      simp only [Option.some_bind] at hs
      split at hs
      · exact Option.noConfusion hs
      · obtain ⟨h1, h2, h3, h4⟩ := maturedLoop_some hl
        cases hs
        intro S hS Y hY
        have hSeq : S = maturedSiacoinDiffs
            (ordm (getBucket bn.height cs.delayedSiacoinOutputs)) := by
          apply List.append_cancel_left
          rw [← hS]
          exact h3
        subst hSeq
        exact maturedLoop_rt_mature hl Y hY
  · have hle : bn.height ≤ md := by omega
    rw [applyMaturedSiacoinOutputs_noop hle] at hs
    cases hs
    intro S hS Y hY
    have hSeq : S = [] := append_eq_self_nil hS.symm
    subst hSeq
    exact hY

/-! ### Wrapper lemmas: applyMissedStorageProof -/

theorem applyMissedStorageProof_some {debug : Bool} {md : Nat} {cs : ConsensusSet}
    {bn : blockNode} {fcid : Nat} {r : ConsensusSet × blockNode}
    (hs : applyMissedStorageProof debug md cs bn fcid = some r) :
    r.1.siacoinOutputs = cs.siacoinOutputs ∧
    r.1.fileContracts = mdel fcid cs.fileContracts ∧
    r.1.delayedSiacoinOutputs =
      insertAll (bn.height + md)
        (payoutEntries (storageProofOutputID fcid true)
          ((lkp fcid cs.fileContracts).getD zeroFileContract).missedProofOutputs)
        cs.delayedSiacoinOutputs ∧
    r.2.block = bn.block ∧ r.2.height = bn.height ∧
    r.2.siacoinOutputDiffs = bn.siacoinOutputDiffs ∧
    r.2.delayedSiacoinOutputDiffs =
      bn.delayedSiacoinOutputDiffs ++
        missedProofDiffs fcid ((lkp fcid cs.fileContracts).getD zeroFileContract)
          (bn.height + md) ∧
    r.2.fileContractDiffs = bn.fileContractDiffs ++
      [⟨DiffDirection.revert, fcid, (lkp fcid cs.fileContracts).getD zeroFileContract⟩] ∧
    (debug = true → (lkp fcid cs.fileContracts).isSome = true ∧
      ((lkp fcid cs.fileContracts).getD zeroFileContract).windowEnd = bn.height) := by
  simp only [applyMissedStorageProof] at hs
  split at hs
  · exact Option.noConfusion hs
  · rename_i hc1
    split at hs
    · exact Option.noConfusion hs
    · rename_i hc2
      cases hl : delayedPayoutLoop debug (storageProofOutputID fcid true) (bn.height + md)
          cs.siacoinOutputs
          ((lkp fcid cs.fileContracts).getD zeroFileContract).missedProofOutputs.enum
          cs.delayedSiacoinOutputs bn.delayedSiacoinOutputDiffs with
      | none => rw [hl] at hs; exact Option.noConfusion hs
      | some p =>
        rw [hl] at hs
        obtain ⟨h1, h2, _⟩ := delayedPayoutLoop_some hl
        cases hs
        refine ⟨rfl, rfl, h1, rfl, rfl, rfl, h2, rfl, ?_⟩
        intro hd
        subst hd
        simp at hc1 hc2
        exact ⟨Option.ne_none_iff_isSome.1 hc1, hc2⟩

theorem applyMissedStorageProof_rt {md : Nat} {cs : ConsensusSet} {bn : blockNode}
    {fcid : Nat} {r : ConsensusSet × blockNode}
    (hs : applyMissedStorageProof true md cs bn fcid = some r) :
    (∀ A, r.2.delayedSiacoinOutputDiffs = bn.delayedSiacoinOutputDiffs ++ A →
      ∀ X, DEq X r.1.delayedSiacoinOutputs →
        DEq (revertDelayedSiacoinOutputDiffs A X) cs.delayedSiacoinOutputs) ∧
    (∀ F, r.2.fileContractDiffs = bn.fileContractDiffs ++ F →
      ∀ Y, MEq Y r.1.fileContracts →
        MEq (revertFileContractDiffs F Y) cs.fileContracts) := by
  simp only [applyMissedStorageProof] at hs
  split at hs
  · exact Option.noConfusion hs
  · rename_i hc1
    split at hs
    · exact Option.noConfusion hs
    · rename_i hc2
      cases hl : delayedPayoutLoop true (storageProofOutputID fcid true) (bn.height + md)
          cs.siacoinOutputs
          ((lkp fcid cs.fileContracts).getD zeroFileContract).missedProofOutputs.enum
          cs.delayedSiacoinOutputs bn.delayedSiacoinOutputDiffs with
      | none => rw [hl] at hs; exact Option.noConfusion hs
      | some p =>
        rw [hl] at hs
        obtain ⟨h1, h2, _⟩ := delayedPayoutLoop_some hl
        cases hs
        constructor
        · intro A hA X hX
          have hAeq := List.append_cancel_left (hA.symm.trans h2)
          subst hAeq
          exact delayedPayoutLoop_rt hl X hX
        · intro F hF Y hY
          have hFeq := List.append_cancel_left
            (hF.symm.trans (rfl :
              bn.fileContractDiffs ++
                [⟨DiffDirection.revert, fcid,
                  (lkp fcid cs.fileContracts).getD zeroFileContract⟩] =
              bn.fileContractDiffs ++
                [⟨DiffDirection.revert, fcid,
                  (lkp fcid cs.fileContracts).getD zeroFileContract⟩]))
          subst hFeq
          rw [revertF_cons, revertF_nil, commitF_revert_revert]
          intro k
          rw [lkp_mset]
          by_cases hk : fcid = k
          · rw [if_pos hk, ← hk]
            have hc1' : (lkp fcid cs.fileContracts).isSome = true := by
              simp at hc1
              exact Option.ne_none_iff_isSome.1 hc1
            exact (isSome_eq_some_getD hc1' zeroFileContract).symm
          · rw [if_neg hk, hY k, lkp_mdel, if_neg hk]

/-! ### The contract fold and scan -/

theorem contractsOf_cons (m : FCMap) (i : Nat) (ids : List Nat) :
    contractsOf m (i :: ids) =
      (i, (lkp i m).getD zeroFileContract) :: contractsOf m ids := rfl

theorem contractDelayedDiffs_cons (mh : Nat) (e : Nat × FileContract)
    (l : List (Nat × FileContract)) :
    contractDelayedDiffs mh (e :: l) =
      missedProofDiffs e.1 e.2 mh ++ contractDelayedDiffs mh l := rfl

theorem contractRevertDiffs_cons (e : Nat × FileContract) (l : List (Nat × FileContract)) :
    contractRevertDiffs (e :: l) =
      (⟨DiffDirection.revert, e.1, e.2⟩ : FileContractDiff) :: contractRevertDiffs l := rfl

theorem insertAllContracts_cons (mh : Nat) (e : Nat × FileContract)
    (l : List (Nat × FileContract)) (d : DMap) :
    insertAllContracts mh (e :: l) d =
      insertAllContracts mh l
        (insertAll mh (payoutEntries (storageProofOutputID e.1 true) e.2.missedProofOutputs)
          d) := rfl

theorem contractsOf_congr {m₁ m₂ : FCMap} {ids : List Nat}
    (h : ∀ i ∈ ids, lkp i m₁ = lkp i m₂) :
    contractsOf m₁ ids = contractsOf m₂ ids := by
  induction ids with
  | nil => rfl
  | cons i rest ih =>
    rw [contractsOf_cons, contractsOf_cons, h i (List.mem_cons_self _ _),
      ih fun j hj => h j (List.mem_cons_of_mem _ hj)]

theorem contractsOf_eq_self {m : FCMap} {L : FCMap}
    (hL : ∀ e ∈ L, lkp e.1 m = some e.2) :
    contractsOf m (L.map Prod.fst) = L := by
  induction L with
  | nil => rfl
  | cons e rest ih =>
    rw [List.map_cons, contractsOf_cons, hL e (List.mem_cons_self _ _),
      ih fun e' he' => hL e' (List.mem_cons_of_mem _ he')]
    simp

theorem missedProofFold_some {debug : Bool} {md : Nat} {ids : List Nat} {cs : ConsensusSet}
    {bn : blockNode} {r : ConsensusSet × blockNode}
    (hnd : ids.Nodup)
    (hs : missedProofFold debug md ids cs bn = some r) :
    r.1.siacoinOutputs = cs.siacoinOutputs ∧
    r.1.fileContracts = mdelAll ids cs.fileContracts ∧
    r.1.delayedSiacoinOutputs =
      insertAllContracts (bn.height + md) (contractsOf cs.fileContracts ids)
        cs.delayedSiacoinOutputs ∧
    r.2.block = bn.block ∧ r.2.height = bn.height ∧
    r.2.siacoinOutputDiffs = bn.siacoinOutputDiffs ∧
    r.2.delayedSiacoinOutputDiffs =
      bn.delayedSiacoinOutputDiffs ++
        contractDelayedDiffs (bn.height + md) (contractsOf cs.fileContracts ids) ∧
    r.2.fileContractDiffs =
      bn.fileContractDiffs ++ contractRevertDiffs (contractsOf cs.fileContracts ids) := by
  induction ids generalizing cs bn with
  | nil =>
    rw [missedProofFold] at hs
    cases hs
    exact ⟨rfl, rfl, rfl, rfl, rfl, rfl, by simp [contractsOf, contractDelayedDiffs],
      by simp [contractsOf, contractRevertDiffs]⟩
  | cons i rest ih =>
    rw [missedProofFold] at hs
    cases hstep : applyMissedStorageProof debug md cs bn i with
    | none => rw [hstep] at hs; exact Option.noConfusion hs
    | some r₁ =>
      rw [hstep] at hs
      simp only [Option.some_bind] at hs
      obtain ⟨e1, e2, e3, e4, e5, e6, e7, e8, _⟩ := applyMissedStorageProof_some hstep
      rw [List.nodup_cons] at hnd
      obtain ⟨f1, f2, f3, f4, f5, f6, f7, f8⟩ := ih hnd.2 hs
      have hckeys : ∀ j ∈ rest, lkp j r₁.1.fileContracts = lkp j cs.fileContracts := by
        intro j hj
        rw [e2, lkp_mdel, if_neg (show ¬ i = j from fun hx => hnd.1 (by rw [hx]; exact hj))]
      have hcof : contractsOf r₁.1.fileContracts rest = contractsOf cs.fileContracts rest :=
        contractsOf_congr hckeys
      refine ⟨?_, ?_, ?_, ?_, ?_, ?_, ?_, ?_⟩
      · rw [f1, e1]
      · rw [f2, mdelAll_cons, e2]
      · rw [f3, hcof, e3, e5, contractsOf_cons, insertAllContracts_cons]
      · rw [f4, e4]
      · rw [f5, e5]
      · rw [f6, e6]
      · rw [f7, e7, hcof, e5, contractsOf_cons, contractDelayedDiffs_cons,
          List.append_assoc]
      · rw [f8, e8, hcof, contractsOf_cons, contractRevertDiffs_cons,
          List.append_assoc]
        rfl

theorem missedProofFold_logs {debug : Bool} {md : Nat} {ids : List Nat} {cs : ConsensusSet}
    {bn : blockNode} {r : ConsensusSet × blockNode}
    (hs : missedProofFold debug md ids cs bn = some r) :
    r.1.siacoinOutputs = cs.siacoinOutputs ∧
    r.2.block = bn.block ∧ r.2.height = bn.height ∧
    r.2.siacoinOutputDiffs = bn.siacoinOutputDiffs ∧
    (∃ A, r.2.delayedSiacoinOutputDiffs = bn.delayedSiacoinOutputDiffs ++ A) ∧
    (∃ F, r.2.fileContractDiffs = bn.fileContractDiffs ++ F) := by
  induction ids generalizing cs bn with
  | nil =>
    rw [missedProofFold] at hs
    cases hs
    exact ⟨rfl, rfl, rfl, rfl, ⟨[], by simp⟩, ⟨[], by simp⟩⟩
  | cons i rest ih =>
    rw [missedProofFold] at hs
    cases hstep : applyMissedStorageProof debug md cs bn i with
    | none => rw [hstep] at hs; exact Option.noConfusion hs
    | some r₁ =>
      rw [hstep] at hs
      simp only [Option.some_bind] at hs
      obtain ⟨e1, e2, e3, e4, e5, e6, e7, e8, _⟩ := applyMissedStorageProof_some hstep
      obtain ⟨f1, f4, f5, f6, ⟨A', hA'⟩, ⟨F', hF'⟩⟩ := ih hs
      refine ⟨f1.trans e1, f4.trans e4, f5.trans e5, f6.trans e6, ?_, ?_⟩
      · exact ⟨_, by rw [hA', e7, List.append_assoc]⟩
      · exact ⟨_, by rw [hF', e8, List.append_assoc]⟩

theorem missedProofFold_rt {md : Nat} {ids : List Nat} {cs : ConsensusSet} {bn : blockNode}
    {r : ConsensusSet × blockNode}
    (hs : missedProofFold true md ids cs bn = some r) :
    (∀ A, r.2.delayedSiacoinOutputDiffs = bn.delayedSiacoinOutputDiffs ++ A →
      ∀ X, DEq X r.1.delayedSiacoinOutputs →
        DEq (revertDelayedSiacoinOutputDiffs A X) cs.delayedSiacoinOutputs) ∧
    (∀ F, r.2.fileContractDiffs = bn.fileContractDiffs ++ F →
      ∀ Y, MEq Y r.1.fileContracts →
        MEq (revertFileContractDiffs F Y) cs.fileContracts) := by
  induction ids generalizing cs bn with
  | nil =>
    rw [missedProofFold] at hs
    cases hs
    constructor
    · intro A hA X hX
      have hAeq : A = [] := append_eq_self_nil hA.symm
      subst hAeq
      exact hX
    · intro F hF Y hY
      have hFeq : F = [] := append_eq_self_nil hF.symm
      subst hFeq
      exact hY
  | cons i rest ih =>
    rw [missedProofFold] at hs
    cases hstep : applyMissedStorageProof true md cs bn i with
    | none => rw [hstep] at hs; exact Option.noConfusion hs
    | some r₁ =>
      rw [hstep] at hs
      simp only [Option.some_bind] at hs
      obtain ⟨e1, e2, e3, e4, e5, e6, e7, e8, _⟩ := applyMissedStorageProof_some hstep
      obtain ⟨_, _, _, _, ⟨A', hA'⟩, ⟨F', hF'⟩⟩ := missedProofFold_logs hs
      have hsteprt := applyMissedStorageProof_rt hstep
      have ihrt := ih hs
      constructor
      · intro A hA X hX
        have hAeq : A = missedProofDiffs i ((lkp i cs.fileContracts).getD zeroFileContract)
            (bn.height + md) ++ A' := by
          apply List.append_cancel_left
          rw [← hA, hA', e7, List.append_assoc]
        subst hAeq
        rw [revertD_append]
        exact hsteprt.1 _ e7 _ (ihrt.1 A' hA' X hX)
      · intro F hF Y hY
        have hFeq : F = [⟨DiffDirection.revert, i,
            (lkp i cs.fileContracts).getD zeroFileContract⟩] ++ F' := by
          apply List.append_cancel_left
          rw [← hF, hF', e8, List.append_assoc]
        subst hFeq
        rw [revertF_append]
        exact hsteprt.2 _ e8 _ (ihrt.2 F' hF' Y hY)

theorem expiredScan_some {debug : Bool} {h : Nat} {l : FCMap} {ids : List Nat}
    (hs : expiredScan debug h l = some ids) :
    ids = (expiredOf h l).map Prod.fst := by
  induction l generalizing ids with
  | nil =>
    rw [expiredScan] at hs
    cases hs
    rfl
  | cons e rest ih =>
    rw [expiredScan] at hs
    split at hs
    · exact Option.noConfusion hs
    · cases hrec : expiredScan debug h rest with
      | none => rw [hrec] at hs; exact Option.noConfusion hs
      | some l' =>
        rw [hrec] at hs
        cases hs
        by_cases hb : (e.2.windowEnd == h) = true
        · simp [expiredOf, List.filter_cons, hb, ih hrec]
        · simp [expiredOf, List.filter_cons, hb, ih hrec]

theorem applyFileContractMaintenance_some {debug : Bool} {md : Nat} {ordc : FCMap → FCMap}
    {cs : ConsensusSet} {bn : blockNode} {r : ConsensusSet × blockNode}
    (hs : applyFileContractMaintenance debug md ordc cs bn = some r) :
    ∃ ids, expiredScan debug bn.height (ordc cs.fileContracts) = some ids ∧
      ids = (expiredOf bn.height (ordc cs.fileContracts)).map Prod.fst ∧
      missedProofFold debug md ids cs bn = some r := by
  rw [applyFileContractMaintenance] at hs
  cases hscan : expiredScan debug bn.height (ordc cs.fileContracts) with
  | none => rw [hscan] at hs; exact Option.noConfusion hs
  | some ids =>
    rw [hscan] at hs
    simp only [Option.some_bind] at hs
    exact ⟨ids, rfl, expiredScan_some hscan, hs⟩

theorem applyMaturedSiacoinOutputs_logs {debug : Bool} {md : Nat} {ordm : Bucket → Bucket}
    {cs : ConsensusSet} {bn : blockNode} {r : ConsensusSet × blockNode}
    (hs : applyMaturedSiacoinOutputs debug md ordm cs bn = some r) :
    r.1.fileContracts = cs.fileContracts ∧
    r.2.block = bn.block ∧ r.2.height = bn.height ∧
    r.2.fileContractDiffs = bn.fileContractDiffs ∧
    (∃ S, r.2.siacoinOutputDiffs = bn.siacoinOutputDiffs ++ S) ∧
    (∃ A, r.2.delayedSiacoinOutputDiffs = bn.delayedSiacoinOutputDiffs ++ A) := by
  by_cases hgt : bn.height > md
  · obtain ⟨_, h2, _, h4, h5, h6, h7, h8⟩ := applyMaturedSiacoinOutputs_some hgt hs
    exact ⟨h2, h4, h5, h6, ⟨_, h7⟩, ⟨_, h8⟩⟩
  · have hle : bn.height ≤ md := by omega
    rw [applyMaturedSiacoinOutputs_noop hle] at hs
    cases hs
    exact ⟨rfl, rfl, rfl, rfl, ⟨[], by simp⟩, ⟨[], by simp⟩⟩

/-! ### Identifier derivation lemmas -/

theorem minerPayoutID_injective (b : Block) : Function.Injective b.minerPayoutID := by
  intro i j hij
  rw [Block.minerPayoutID, Block.minerPayoutID] at hij
  injection hij

theorem storageProofOutputID_injective (fcid : Nat) (m : Bool) :
    Function.Injective (storageProofOutputID fcid m) := by
  intro i j hij
  rw [storageProofOutputID, storageProofOutputID] at hij
  injection hij

theorem keysNodup_payoutEntries {mkId : Nat → OutputID} (hinj : Function.Injective mkId)
    (payouts : List SiacoinOutput) : keysNodup (payoutEntries mkId payouts) := by
  rw [keysNodup, payoutEntries, List.map_map]
  have hc : (Prod.fst ∘ fun ip : Nat × SiacoinOutput => (mkId ip.1, ip.2)) =
      mkId ∘ Prod.fst := rfl
  rw [hc, ← List.map_map, List.enum_map_fst]
  exact (List.nodup_range _).map hinj

theorem lkp_insertAllContracts_of_not_key {mh : Nat} {k : OutputID}
    {L : List (Nat × FileContract)}
    (hk : ∀ e ∈ L, ∀ ent ∈ payoutEntries (storageProofOutputID e.1 true)
      e.2.missedProofOutputs, ent.1 ≠ k)
    (h : Nat) (d : DMap) :
    lkp k (getBucket h (insertAllContracts mh L d)) = lkp k (getBucket h d) := by
  induction L generalizing d with
  | nil => rfl
  | cons e rest ih =>
    rw [insertAllContracts_cons,
      ih fun e' he' => hk e' (List.mem_cons_of_mem _ he'),
      lkp_insertAll_of_not_key (hk e (List.mem_cons_self _ _))]

theorem lkp_insertAllContracts_of_mem {mh : Nat} {L : List (Nat × FileContract)}
    (hnd : keysNodup L) {idfc : Nat × FileContract} (hm : idfc ∈ L)
    {ip : Nat × SiacoinOutput} (hip : ip ∈ idfc.2.missedProofOutputs.enum) (d : DMap) :
    lkp (storageProofOutputID idfc.1 true ip.1)
      (getBucket mh (insertAllContracts mh L d)) = some ip.2 := by
  induction L generalizing d with
  | nil => simp at hm
  | cons e rest ih =>
    rw [keysNodup, List.map_cons, List.nodup_cons] at hnd
    rcases List.mem_cons.1 hm with h | h
    · subst h
      rw [insertAllContracts_cons]
      have hk : ∀ e' ∈ rest, ∀ ent ∈ payoutEntries (storageProofOutputID e'.1 true)
          e'.2.missedProofOutputs, ent.1 ≠ storageProofOutputID idfc.1 true ip.1 := by
        intro e' he' ent hent hx
        rcases List.mem_map.1 hent with ⟨ip', _, hip'⟩
        have hfc : e'.1 = idfc.1 := by
          rw [← hip'] at hx
          rw [storageProofOutputID, storageProofOutputID] at hx
          injection hx
        exact hnd.1 (hfc ▸ List.mem_map.2 ⟨e', he', rfl⟩)
      rw [lkp_insertAllContracts_of_not_key hk]
      exact lkp_insertAll_of_mem
        (keysNodup_payoutEntries (storageProofOutputID_injective _ _) _)
        (List.mem_map.2 ⟨ip, hip, rfl⟩) d
    · exact ih hnd.2 h _

/-! ### Claim theorems -/

/-- C4: for every block node and every reward payout at position `i` of
its payout list, a successful `applyMinerPayouts` creates exactly one
delayed output keyed by the identifier derived from the block and `i`,
recorded with maturity height exactly `height + MaturityDelay`, inserts
it into the delayed bucket at that height, and appends exactly one
`DiffApply` diff per payout to the delayed-output diff log, in payout
order; the mature-output map (and everything else) is untouched. -/
theorem claim_C4_minerPayouts {debug : Bool} {md : Nat} {cs : ConsensusSet}
    {bn : blockNode} {r : ConsensusSet × blockNode}
    (hs : applyMinerPayouts debug md cs bn = some r) :
    r.1.siacoinOutputs = cs.siacoinOutputs ∧
    r.1.fileContracts = cs.fileContracts ∧
    r.2.delayedSiacoinOutputDiffs =
      bn.delayedSiacoinOutputDiffs ++ minerPayoutDiffs bn.block (bn.height + md) ∧
    (∀ ip ∈ bn.block.minerPayouts.enum,
      lkp (bn.block.minerPayoutID ip.1)
        (getBucket (bn.height + md) r.1.delayedSiacoinOutputs) = some ip.2) ∧
    (∀ h, h ≠ bn.height + md →
      getBucket h r.1.delayedSiacoinOutputs = getBucket h cs.delayedSiacoinOutputs) ∧
    r.2.siacoinOutputDiffs = bn.siacoinOutputDiffs ∧
    r.2.fileContractDiffs = bn.fileContractDiffs := by
  obtain ⟨p1, p2, p3, p4, p5, p6, p7, p8, _⟩ := applyMinerPayouts_some hs
  refine ⟨p1, p2, p8, ?_, ?_, p6, p7⟩
  · intro ip hip
    rw [p3]
    exact lkp_insertAll_of_mem
      (keysNodup_payoutEntries (minerPayoutID_injective bn.block) _)
      (List.mem_map.2 ⟨ip, hip, rfl⟩) _
  · intro h hne
    rw [p3, getBucket_insertAll_ne hne]

/-- Witness for C4: a block at height 4 (maturity delay 3) with two
payouts, applied to an empty ledger. -/
theorem claim_C4_minerPayouts_witness :
    ((⟨[], [(7, [(OutputID.minerPayoutOf 9 1, ⟨11, 1⟩),
                 (OutputID.minerPayoutOf 9 0, ⟨10, 0⟩)])], []⟩ : ConsensusSet) :
        ConsensusSet).siacoinOutputs = ([] : MMap) ∧
    (([] : FCMap) = ([] : FCMap)) ∧
    ([⟨DiffDirection.apply, OutputID.minerPayoutOf 9 0, ⟨10, 0⟩, 7⟩,
      ⟨DiffDirection.apply, OutputID.minerPayoutOf 9 1, ⟨11, 1⟩, 7⟩] :
        List DelayedSiacoinOutputDiff) =
      [] ++ minerPayoutDiffs ⟨9, [⟨10, 0⟩, ⟨11, 1⟩]⟩ (4 + 3) ∧
    (∀ ip ∈ (⟨9, [⟨10, 0⟩, ⟨11, 1⟩]⟩ : Block).minerPayouts.enum,
      lkp ((⟨9, [⟨10, 0⟩, ⟨11, 1⟩]⟩ : Block).minerPayoutID ip.1)
        (getBucket (4 + 3)
          [(7, [(OutputID.minerPayoutOf 9 1, ⟨11, 1⟩),
                (OutputID.minerPayoutOf 9 0, ⟨10, 0⟩)])]) = some ip.2) ∧
    (∀ h, h ≠ 4 + 3 →
      getBucket h [(7, [(OutputID.minerPayoutOf 9 1, ⟨11, 1⟩),
                        (OutputID.minerPayoutOf 9 0, ⟨10, 0⟩)])] =
        getBucket h ([] : DMap)) ∧
    (([] : List SiacoinOutputDiff) = []) ∧
    (([] : List FileContractDiff) = []) := by
  exact @claim_C4_minerPayouts true 3 ⟨[], [], []⟩
    ⟨⟨9, [⟨10, 0⟩, ⟨11, 1⟩]⟩, 4, [], [], []⟩
    (⟨[], [(7, [(OutputID.minerPayoutOf 9 1, ⟨11, 1⟩),
                (OutputID.minerPayoutOf 9 0, ⟨10, 0⟩)])], []⟩,
     ⟨⟨9, [⟨10, 0⟩, ⟨11, 1⟩]⟩, 4, [],
      [⟨DiffDirection.apply, OutputID.minerPayoutOf 9 0, ⟨10, 0⟩, 7⟩,
       ⟨DiffDirection.apply, OutputID.minerPayoutOf 9 1, ⟨11, 1⟩, 7⟩], []⟩)
    rfl

/-- C1: for any block maintenance pass (`applyMaintenance`, in a
verification build, on a block node whose diff logs start empty and on
any ledger state whose buckets are genuine maps), applying the inverses
of the diffs recorded in the block node's three diff logs in exact
reverse order restores the mature-output map, every delayed-output
bucket, and the contract map to their exact pre-pass contents. -/
theorem claim_C1_roundTrip {md : Nat} {ordm : Bucket → Bucket} {ordc : FCMap → FCMap}
    {cs : ConsensusSet} {bn : blockNode} {r : ConsensusSet × blockNode}
    (hordm : IterOrder ordm)
    (hwf : BucketsWF cs.delayedSiacoinOutputs)
    (hsl : bn.siacoinOutputDiffs = []) (hdl : bn.delayedSiacoinOutputDiffs = [])
    (hfl : bn.fileContractDiffs = [])
    (hs : applyMaintenance true md ordm ordc cs bn = some r) :
    MEq (revertSiacoinOutputDiffs r.2.siacoinOutputDiffs r.1.siacoinOutputs)
      cs.siacoinOutputs ∧
    DEq (revertDelayedSiacoinOutputDiffs r.2.delayedSiacoinOutputDiffs
      r.1.delayedSiacoinOutputs) cs.delayedSiacoinOutputs ∧
    MEq (revertFileContractDiffs r.2.fileContractDiffs r.1.fileContracts)
      cs.fileContracts := by
  rw [applyMaintenance] at hs
  cases h1 : applyMinerPayouts true md cs bn with
  | none => rw [h1] at hs; exact Option.noConfusion hs
  | some r₁ =>
    rw [h1] at hs
    simp only [Option.some_bind] at hs
    cases h2 : applyMaturedSiacoinOutputs true md ordm r₁.1 r₁.2 with
    | none => rw [h2] at hs; exact Option.noConfusion hs
    | some r₂ =>
      rw [h2] at hs
      simp only [Option.some_bind] at hs
      obtain ⟨ids, hscan, hids, hfold⟩ := applyFileContractMaintenance_some hs
      obtain ⟨p1, p2, p3, p4, p5, p6, p7, p8, _⟩ := applyMinerPayouts_some h1
      obtain ⟨q1, q2, q3, q4, ⟨S, hS⟩, ⟨A₂, hA₂⟩⟩ := applyMaturedSiacoinOutputs_logs h2
      obtain ⟨m1, mb, mh', m4, ⟨A₃, hA₃⟩, ⟨F₃, hF₃⟩⟩ := missedProofFold_logs hfold
      have hfoldrt := missedProofFold_rt hfold
      refine ⟨?_, ?_, ?_⟩
      · have hslog : r.2.siacoinOutputDiffs = S := by
          rw [m4, hS, p6, hsl, List.nil_append]
        rw [hslog]
        have hY : MEq r.1.siacoinOutputs r₂.1.siacoinOutputs := by
          rw [m1]
          exact fun k => rfl
        have hrt := applyMaturedSiacoinOutputs_rt_mature h2 S hS _ hY
        intro k
        rw [hrt k, p1]
      · have hdlog : r.2.delayedSiacoinOutputDiffs =
            minerPayoutDiffs bn.block (bn.height + md) ++ (A₂ ++ A₃) := by
          rw [hA₃, hA₂, p8, hdl, List.nil_append, List.append_assoc]
        rw [hdlog, revertD_append, revertD_append]
        have s3 := hfoldrt.1 A₃ hA₃ r.1.delayedSiacoinOutputs (fun h k => rfl)
        have hbwf1 : BucketsWF r₁.1.delayedSiacoinOutputs := by
          rw [p3]
          exact keysNodup_getBucket_insertAll hwf _ _
        have s2 := applyMaturedSiacoinOutputs_rt_delayed (hordm _) (hbwf1 _) h2 A₂ hA₂ _ s3
        exact applyMinerPayouts_rt h1 _ s2
      · have hflog : r.2.fileContractDiffs = F₃ := by
          rw [hF₃, q4, p7, hfl, List.nil_append]
        rw [hflog]
        have hrt := hfoldrt.2 F₃ hF₃ r.1.fileContracts (fun k => rfl)
        intro k
        rw [hrt k, q1, p2]

/-- Witness for C1: a pass at height 5 (maturity delay 2) that queues one
miner payout, matures one delayed output and expires one contract;
reverse replay of the three recorded diff logs restores all three maps. -/
theorem claim_C1_roundTrip_witness :
    MEq (revertSiacoinOutputDiffs
        [⟨DiffDirection.apply, OutputID.txnOutput 0, ⟨50, 2⟩⟩]
        [(OutputID.txnOutput 0, ⟨50, 2⟩)])
      ([] : MMap) ∧
    DEq (revertDelayedSiacoinOutputDiffs
        [⟨DiffDirection.apply, OutputID.minerPayoutOf 7 0, ⟨100, 1⟩, 7⟩,
         ⟨DiffDirection.revert, OutputID.txnOutput 0, ⟨50, 2⟩, 5⟩,
         ⟨DiffDirection.apply, OutputID.storageProofOutputOf 3 true 0, ⟨25, 9⟩, 7⟩]
        [(7, [(OutputID.storageProofOutputOf 3 true 0, ⟨25, 9⟩),
              (OutputID.minerPayoutOf 7 0, ⟨100, 1⟩)])])
      [(5, [(OutputID.txnOutput 0, ⟨50, 2⟩)])] ∧
    MEq (revertFileContractDiffs
        [⟨DiffDirection.revert, 3, ⟨5, [⟨25, 9⟩]⟩⟩]
        ([] : FCMap))
      [(3, ⟨5, [⟨25, 9⟩]⟩)] := by
  exact @claim_C1_roundTrip 2 (fun l => l) (fun l => l)
    ⟨[], [(5, [(OutputID.txnOutput 0, ⟨50, 2⟩)])], [(3, ⟨5, [⟨25, 9⟩]⟩)]⟩
    ⟨⟨7, [⟨100, 1⟩]⟩, 5, [], [], []⟩
    (⟨[(OutputID.txnOutput 0, ⟨50, 2⟩)],
      [(7, [(OutputID.storageProofOutputOf 3 true 0, ⟨25, 9⟩),
            (OutputID.minerPayoutOf 7 0, ⟨100, 1⟩)])], []⟩,
     ⟨⟨7, [⟨100, 1⟩]⟩, 5,
      [⟨DiffDirection.apply, OutputID.txnOutput 0, ⟨50, 2⟩⟩],
      [⟨DiffDirection.apply, OutputID.minerPayoutOf 7 0, ⟨100, 1⟩, 7⟩,
       ⟨DiffDirection.revert, OutputID.txnOutput 0, ⟨50, 2⟩, 5⟩,
       ⟨DiffDirection.apply, OutputID.storageProofOutputOf 3 true 0, ⟨25, 9⟩, 7⟩],
      [⟨DiffDirection.revert, 3, ⟨5, [⟨25, 9⟩]⟩⟩]⟩)
    (fun l => List.Perm.refl l)
    (fun h => by
      rw [getBucket, lkp]
      by_cases h5 : (5 : Nat) = h
      · rw [if_pos h5, keysNodup]
        decide
      · rw [if_neg h5]
        exact List.nodup_nil)
    rfl rfl rfl rfl

/-- C6: for a block at height strictly above the maturity delay, after a
successful `applyMaturedSiacoinOutputs` the bucket at that height is
absent from the height index, every entry it formerly held is in the
mature-output map with identical identifier and value, and exactly two
diffs per entry were recorded: a `DiffApply` siacoin output diff in the
output diff log and a `DiffRevert` delayed diff (at the block height) in
the delayed-output diff log, one pair per drained entry. -/
theorem claim_C6_maturation {debug : Bool} {md : Nat} {ordm : Bucket → Bucket}
    {cs : ConsensusSet} {bn : blockNode} {r : ConsensusSet × blockNode}
    (hordm : IterOrder ordm)
    (hbwf : keysNodup (getBucket bn.height cs.delayedSiacoinOutputs))
    (hgt : bn.height > md)
    (hs : applyMaturedSiacoinOutputs debug md ordm cs bn = some r) :
    lkp bn.height r.1.delayedSiacoinOutputs = none ∧
    (∀ k v, lkp k (getBucket bn.height cs.delayedSiacoinOutputs) = some v →
      lkp k r.1.siacoinOutputs = some v) ∧
    r.2.siacoinOutputDiffs = bn.siacoinOutputDiffs ++
      maturedSiacoinDiffs (ordm (getBucket bn.height cs.delayedSiacoinOutputs)) ∧
    r.2.delayedSiacoinOutputDiffs = bn.delayedSiacoinOutputDiffs ++
      maturedDelayedDiffs bn.height (ordm (getBucket bn.height cs.delayedSiacoinOutputs)) := by
  obtain ⟨a1, a2, a3, a4, a5, a6, a7, a8⟩ := applyMaturedSiacoinOutputs_some hgt hs
  refine ⟨?_, ?_, a7, a8⟩
  · rw [a3, lkp_mdel, if_pos rfl]
  · intro k v hv
    rw [a1]
    exact lkp_msetAll_of_mem
      (((hordm _).map Prod.fst).nodup_iff.2 hbwf)
      ((hordm _).mem_iff.2 (lkp_some_mem hv)) _

/-- Witness for C6: height 5, maturity delay 1, one delayed output in the
bucket at height 5, empty mature map. -/
theorem claim_C6_maturation_witness :
    lkp 5 ([] : DMap) = none ∧
    (∀ k v, lkp k (getBucket 5 [(5, [(OutputID.txnOutput 4, ⟨33, 8⟩)])]) = some v →
      lkp k [(OutputID.txnOutput 4, ⟨33, 8⟩)] = some v) ∧
    ([⟨DiffDirection.apply, OutputID.txnOutput 4, ⟨33, 8⟩⟩] : List SiacoinOutputDiff) =
      [] ++ maturedSiacoinDiffs [(OutputID.txnOutput 4, ⟨33, 8⟩)] ∧
    ([⟨DiffDirection.revert, OutputID.txnOutput 4, ⟨33, 8⟩, 5⟩] :
        List DelayedSiacoinOutputDiff) =
      [] ++ maturedDelayedDiffs 5 [(OutputID.txnOutput 4, ⟨33, 8⟩)] := by
  exact @claim_C6_maturation true 1 (fun l => l)
    ⟨[], [(5, [(OutputID.txnOutput 4, ⟨33, 8⟩)])], []⟩
    ⟨⟨2, []⟩, 5, [], [], []⟩
    (⟨[(OutputID.txnOutput 4, ⟨33, 8⟩)], [], []⟩,
     ⟨⟨2, []⟩, 5,
      [⟨DiffDirection.apply, OutputID.txnOutput 4, ⟨33, 8⟩⟩],
      [⟨DiffDirection.revert, OutputID.txnOutput 4, ⟨33, 8⟩, 5⟩], []⟩)
    (fun l => List.Perm.refl l)
    (by rw [keysNodup]; decide)
    (by decide)
    rfl

/-- C5: when the block height does not exceed the maturity delay,
`applyMaturedSiacoinOutputs` returns immediately without failing, on any
ledger state (including one with no bucket at the height), leaving the
consensus set and every diff log unchanged. -/
theorem claim_C5_maturationNoop {debug : Bool} {md : Nat} {ordm : Bucket → Bucket}
    {cs : ConsensusSet} {bn : blockNode} (hle : bn.height ≤ md) :
    applyMaturedSiacoinOutputs debug md ordm cs bn = some (cs, bn) :=
  applyMaturedSiacoinOutputs_noop hle

/-- C7: after a successful `applyFileContractMaintenance`, every contract
whose window ends exactly at the block height is gone from the contract
map, got exactly one `DiffRevert` contract diff appended (one diff per
expired contract, recorded in the contract diff log equation), and every
entry at position `i` of its missed-proof-output list sits in the delayed
bucket at height + MaturityDelay under the identifier derived from the
contract id, the missed tag and `i`, with exactly one `DiffApply` diff per
such entry appended to the delayed-output diff log (the
`contractDelayedDiffs` log equation: one Apply diff per missed-proof
payout of each expired contract, at maturity height + MaturityDelay);
contracts whose window ends strictly later are untouched. -/
theorem claim_C7_contractExpiry {debug : Bool} {md : Nat} {ordc : FCMap → FCMap}
    {cs : ConsensusSet} {bn : blockNode} {r : ConsensusSet × blockNode}
    (hordc : IterOrder ordc)
    (hfwf : keysNodup cs.fileContracts)
    (hs : applyFileContractMaintenance debug md ordc cs bn = some r) :
    (∀ k fc, lkp k cs.fileContracts = some fc → fc.windowEnd = bn.height →
      lkp k r.1.fileContracts = none ∧
      ∀ ip ∈ fc.missedProofOutputs.enum,
        lkp (storageProofOutputID k true ip.1)
          (getBucket (bn.height + md) r.1.delayedSiacoinOutputs) = some ip.2) ∧
    r.2.fileContractDiffs = bn.fileContractDiffs ++
      contractRevertDiffs (expiredOf bn.height (ordc cs.fileContracts)) ∧
    r.2.delayedSiacoinOutputDiffs = bn.delayedSiacoinOutputDiffs ++
      contractDelayedDiffs (bn.height + md) (expiredOf bn.height (ordc cs.fileContracts)) ∧
    (∀ k fc, lkp k cs.fileContracts = some fc → fc.windowEnd > bn.height →
      lkp k r.1.fileContracts = some fc) := by
  obtain ⟨ids, hscan, hids, hfold⟩ := applyFileContractMaintenance_some hs
  have hvalsE : ∀ e ∈ expiredOf bn.height (ordc cs.fileContracts),
      lkp e.1 cs.fileContracts = some e.2 := by
    intro e he
    obtain ⟨e1, e2⟩ := e
    exact mem_lkp_of_keysNodup
      ((hordc _).mem_iff.1 (List.mem_filter.1 he).1) hfwf
  have hkeysE : keysNodup (expiredOf bn.height (ordc cs.fileContracts)) := by
    have hko : keysNodup (ordc cs.fileContracts) :=
      ((hordc _).map Prod.fst).nodup_iff.2 hfwf
    exact ((List.filter_sublist _).map Prod.fst).nodup hko
  have hnd : ids.Nodup := by
    rw [hids]
    exact hkeysE
  have hcof : contractsOf cs.fileContracts ids =
      expiredOf bn.height (ordc cs.fileContracts) := by
    rw [hids]
    exact contractsOf_eq_self hvalsE
  obtain ⟨f1, f2, f3, f4, f5, f6, f7, f8⟩ := missedProofFold_some hnd hfold
  have hmemE : ∀ k fc, lkp k cs.fileContracts = some fc → fc.windowEnd = bn.height →
      (k, fc) ∈ expiredOf bn.height (ordc cs.fileContracts) := by
    intro k fc hlkp hwend
    exact List.mem_filter.2 ⟨(hordc _).mem_iff.2 (lkp_some_mem hlkp),
      by rw [hwend]; exact beq_self_eq_true _⟩
  refine ⟨?_, ?_, ?_, ?_⟩
  · intro k fc hlkp hwend
    have hmem := hmemE k fc hlkp hwend
    have hkid : k ∈ ids := by
      rw [hids]
      exact List.mem_map.2 ⟨(k, fc), hmem, rfl⟩
    constructor
    · rw [f2, lkp_mdelAll, if_pos hkid]
    · intro ip hip
      rw [f3, hcof]
      exact lkp_insertAllContracts_of_mem hkeysE hmem hip _
  · rw [f8, hcof]
  · rw [f7, hcof]
  · intro k fc hlkp hwend
    have hknotin : k ∉ ids := by
      intro hkid
      rw [hids] at hkid
      obtain ⟨e, he, hek⟩ := List.mem_map.1 hkid
      have hvale := hvalsE e he
      rw [hek, hlkp] at hvale
      have : fc = e.2 := Option.some.inj hvale
      have hwe : (e.2.windowEnd == bn.height) = true := (List.mem_filter.1 he).2
      rw [← this] at hwe
      have := beq_iff_eq.1 hwe
      omega
    rw [f2, lkp_mdelAll, if_neg hknotin, hlkp]

/-- Witness for C7:-at height 8 with maturity delay 2, contract 4 expires
with one missed payout while contract 6 (window end 9) survives. -/
theorem claim_C7_contractExpiry_witness :
    (∀ k fc,
      lkp k [(4, (⟨8, [⟨60, 3⟩]⟩ : FileContract)), (6, ⟨9, [⟨70, 4⟩]⟩)] = some fc →
      fc.windowEnd = 8 →
      lkp k [(6, (⟨9, [⟨70, 4⟩]⟩ : FileContract))] = none ∧
      ∀ ip ∈ fc.missedProofOutputs.enum,
        lkp (storageProofOutputID k true ip.1)
          (getBucket (8 + 2)
            [(10, [(OutputID.storageProofOutputOf 4 true 0, ⟨60, 3⟩)])]) = some ip.2) ∧
    ([⟨DiffDirection.revert, 4, ⟨8, [⟨60, 3⟩]⟩⟩] : List FileContractDiff) =
      [] ++ contractRevertDiffs
        (expiredOf 8 [(4, ⟨8, [⟨60, 3⟩]⟩), (6, ⟨9, [⟨70, 4⟩]⟩)]) ∧
    ([⟨DiffDirection.apply, OutputID.storageProofOutputOf 4 true 0, ⟨60, 3⟩, 10⟩] :
        List DelayedSiacoinOutputDiff) =
      [] ++ contractDelayedDiffs (8 + 2)
        (expiredOf 8 [(4, ⟨8, [⟨60, 3⟩]⟩), (6, ⟨9, [⟨70, 4⟩]⟩)]) ∧
    (∀ k fc,
      lkp k [(4, (⟨8, [⟨60, 3⟩]⟩ : FileContract)), (6, ⟨9, [⟨70, 4⟩]⟩)] = some fc →
      fc.windowEnd > 8 →
      lkp k [(6, (⟨9, [⟨70, 4⟩]⟩ : FileContract))] = some fc) := by
  exact @claim_C7_contractExpiry true 2 (fun l => l)
    ⟨[], [], [(4, ⟨8, [⟨60, 3⟩]⟩), (6, ⟨9, [⟨70, 4⟩]⟩)]⟩
    ⟨⟨1, []⟩, 8, [], [], []⟩
    (⟨[], [(10, [(OutputID.storageProofOutputOf 4 true 0, ⟨60, 3⟩)])],
      [(6, ⟨9, [⟨70, 4⟩]⟩)]⟩,
     ⟨⟨1, []⟩, 8, [],
      [⟨DiffDirection.apply, OutputID.storageProofOutputOf 4 true 0, ⟨60, 3⟩, 10⟩],
      [⟨DiffDirection.revert, 4, ⟨8, [⟨60, 3⟩]⟩⟩]⟩)
    (fun l => List.Perm.refl l)
    (by rw [keysNodup]; decide)
    rfl

/-- Witness for C5 at height 3 with maturity delay 10 on an empty ledger
(scenario C of the spec). -/
theorem claim_C5_maturationNoop_witness :
    applyMaturedSiacoinOutputs true 10 (fun l => l)
      ⟨[], [], []⟩ ⟨⟨0, []⟩, 3, [], [], []⟩ =
      some (⟨[], [], []⟩, ⟨⟨0, []⟩, 3, [], [], []⟩) :=
  claim_C5_maturationNoop (by decide)

/-- C8: `applyFileContractMaintenance` is exactly the composition of a
pure scan of the contract-map snapshot — which mutates nothing and
collects precisely the identifiers of contracts whose window ends at the
block height, in enumeration order — followed by one
`applyMissedStorageProof` invocation per collected identifier, run
against the state as it was when the enumeration completed. -/
theorem claim_C8_scanThenMutate (debug : Bool) (md : Nat) (ordc : FCMap → FCMap)
    (cs : ConsensusSet) (bn : blockNode) :
    applyFileContractMaintenance debug md ordc cs bn =
      (expiredScan debug bn.height (ordc cs.fileContracts)).bind
        (fun ids => missedProofFold debug md ids cs bn) ∧
    (∀ ids, expiredScan debug bn.height (ordc cs.fileContracts) = some ids →
      ids = (expiredOf bn.height (ordc cs.fileContracts)).map Prod.fst) ∧
    missedProofFold debug md [] cs bn = some (cs, bn) ∧
    (∀ i rest, missedProofFold debug md (i :: rest) cs bn =
      (applyMissedStorageProof debug md cs bn i).bind
        fun r => missedProofFold debug md rest r.1 r.2) :=
  ⟨rfl, fun _ h => expiredScan_some h, rfl, fun _ _ => rfl⟩

/-- Witness for C8: the scan of a two-contract map at height 8 collects
exactly the id of the contract whose window ends at 8. -/
theorem claim_C8_scanThenMutate_witness :
    expiredScan true 8 [(4, (⟨8, []⟩ : FileContract)), (6, ⟨9, []⟩)] = some [4] ∧
    ([4] : List Nat) =
      (expiredOf 8 [(4, (⟨8, []⟩ : FileContract)), (6, ⟨9, []⟩)]).map Prod.fst :=
  ⟨by decide,
   (claim_C8_scanThenMutate true 0 (fun l => l)
      ⟨[], [], [(4, ⟨8, []⟩), (6, ⟨9, []⟩)]⟩ ⟨⟨0, []⟩, 8, [], [], []⟩).2.1
     [4] (by decide)⟩

/-- Two successful maturation passes over the same state, with different
iteration orders, append log segments that are permutations of each
other and agree on everything except the order-dependent data. -/
theorem matured_log_perm {debug : Bool} {md : Nat} {ordm₁ ordm₂ : Bucket → Bucket}
    {cs : ConsensusSet} {bn : blockNode} {ra rb : ConsensusSet × blockNode}
    (hordm₁ : IterOrder ordm₁) (hordm₂ : IterOrder ordm₂)
    (hsa : applyMaturedSiacoinOutputs debug md ordm₁ cs bn = some ra)
    (hsb : applyMaturedSiacoinOutputs debug md ordm₂ cs bn = some rb) :
    ∃ Sa Sb Aa Ab,
      ra.2.siacoinOutputDiffs = bn.siacoinOutputDiffs ++ Sa ∧
      rb.2.siacoinOutputDiffs = bn.siacoinOutputDiffs ++ Sb ∧ Sa.Perm Sb ∧
      ra.2.delayedSiacoinOutputDiffs = bn.delayedSiacoinOutputDiffs ++ Aa ∧
      rb.2.delayedSiacoinOutputDiffs = bn.delayedSiacoinOutputDiffs ++ Ab ∧ Aa.Perm Ab ∧
      ra.1.fileContracts = cs.fileContracts ∧ rb.1.fileContracts = cs.fileContracts ∧
      ra.2.height = bn.height ∧ rb.2.height = bn.height ∧
      ra.2.fileContractDiffs = bn.fileContractDiffs ∧
      rb.2.fileContractDiffs = bn.fileContractDiffs := by
  by_cases hgt : bn.height > md
  · obtain ⟨_, a2, _, _, a5, a6, a7, a8⟩ := applyMaturedSiacoinOutputs_some hgt hsa
    obtain ⟨_, b2, _, _, b5, b6, b7, b8⟩ := applyMaturedSiacoinOutputs_some hgt hsb
    have hperm : (ordm₁ (getBucket bn.height cs.delayedSiacoinOutputs)).Perm
        (ordm₂ (getBucket bn.height cs.delayedSiacoinOutputs)) :=
      (hordm₁ _).trans (hordm₂ _).symm
    exact ⟨_, _, _, _, a7, b7, hperm.map _, a8, b8, hperm.map _,
      a2, b2, a5, b5, a6, b6⟩
  · have hle : bn.height ≤ md := by omega
    rw [applyMaturedSiacoinOutputs_noop hle] at hsa hsb
    cases hsa
    cases hsb
    exact ⟨[], [], [], [], by simp, by simp, List.Perm.refl _, by simp, by simp,
      List.Perm.refl _, rfl, rfl, rfl, rfl, rfl, rfl⟩

/-- Two successful contract maintenance passes over states with the same
contract map and the same block height, with different iteration orders,
append log segments that are permutations of each other. -/
theorem fcm_log_perm {debug : Bool} {md : Nat} {ordc₁ ordc₂ : FCMap → FCMap}
    {csa csb : ConsensusSet} {bna bnb : blockNode} {ra rb : ConsensusSet × blockNode}
    (hordc₁ : IterOrder ordc₁) (hordc₂ : IterOrder ordc₂)
    (hfc : csa.fileContracts = csb.fileContracts)
    (hh : bna.height = bnb.height)
    (hfwf : keysNodup csa.fileContracts)
    (hsa : applyFileContractMaintenance debug md ordc₁ csa bna = some ra)
    (hsb : applyFileContractMaintenance debug md ordc₂ csb bnb = some rb) :
    ra.2.siacoinOutputDiffs = bna.siacoinOutputDiffs ∧
    rb.2.siacoinOutputDiffs = bnb.siacoinOutputDiffs ∧
    ∃ Ca Cb Fa Fb,
      ra.2.delayedSiacoinOutputDiffs = bna.delayedSiacoinOutputDiffs ++ Ca ∧
      rb.2.delayedSiacoinOutputDiffs = bnb.delayedSiacoinOutputDiffs ++ Cb ∧
      Ca.Perm Cb ∧
      ra.2.fileContractDiffs = bna.fileContractDiffs ++ Fa ∧
      rb.2.fileContractDiffs = bnb.fileContractDiffs ++ Fb ∧
      Fa.Perm Fb := by
  obtain ⟨idsa, hscana, hidsa, hfolda⟩ := applyFileContractMaintenance_some hsa
  obtain ⟨idsb, hscanb, hidsb, hfoldb⟩ := applyFileContractMaintenance_some hsb
  have hvalsEa : ∀ e ∈ expiredOf bna.height (ordc₁ csa.fileContracts),
      lkp e.1 csa.fileContracts = some e.2 := by
    intro e he
    obtain ⟨e1, e2⟩ := e
    exact mem_lkp_of_keysNodup ((hordc₁ _).mem_iff.1 (List.mem_filter.1 he).1) hfwf
  have hvalsEb : ∀ e ∈ expiredOf bnb.height (ordc₂ csb.fileContracts),
      lkp e.1 csb.fileContracts = some e.2 := by
    intro e he
    obtain ⟨e1, e2⟩ := e
    exact mem_lkp_of_keysNodup ((hordc₂ _).mem_iff.1 (List.mem_filter.1 he).1)
      (hfc ▸ hfwf)
  have hndA : idsa.Nodup := by
    rw [hidsa]
    exact ((List.filter_sublist _).map Prod.fst).nodup
      (((hordc₁ _).map Prod.fst).nodup_iff.2 hfwf)
  have hndB : idsb.Nodup := by
    rw [hidsb]
    exact ((List.filter_sublist _).map Prod.fst).nodup
      (((hordc₂ _).map Prod.fst).nodup_iff.2 (hfc ▸ hfwf))
  have hcofa : contractsOf csa.fileContracts idsa =
      expiredOf bna.height (ordc₁ csa.fileContracts) := by
    rw [hidsa]
    exact contractsOf_eq_self hvalsEa
  have hcofb : contractsOf csb.fileContracts idsb =
      expiredOf bnb.height (ordc₂ csb.fileContracts) := by
    rw [hidsb]
    exact contractsOf_eq_self hvalsEb
  obtain ⟨_, _, _, _, _, fa6, fa7, fa8⟩ := missedProofFold_some hndA hfolda
  obtain ⟨_, _, _, _, _, fb6, fb7, fb8⟩ := missedProofFold_some hndB hfoldb
  have hEperm : (expiredOf bna.height (ordc₁ csa.fileContracts)).Perm
      (expiredOf bnb.height (ordc₂ csb.fileContracts)) := by
    rw [expiredOf, expiredOf, hfc, hh]
    exact ((hordc₁ _).filter _).trans (((hordc₂ _).filter _).symm)
  refine ⟨fa6, fb6,
    contractDelayedDiffs (bna.height + md) (expiredOf bna.height (ordc₁ csa.fileContracts)),
    contractDelayedDiffs (bnb.height + md) (expiredOf bnb.height (ordc₂ csb.fileContracts)),
    contractRevertDiffs (expiredOf bna.height (ordc₁ csa.fileContracts)),
    contractRevertDiffs (expiredOf bnb.height (ordc₂ csb.fileContracts)),
    ?_, ?_, ?_, ?_, ?_, ?_⟩
  · rw [fa7, hcofa]
  · rw [fb7, hcofb]
  · rw [contractDelayedDiffs, contractDelayedDiffs]
    have hmh : bna.height + md = bnb.height + md := by rw [hh]
    rw [hmh]
    exact List.Perm.flatMap_right _ hEperm
  · rw [fa8, hcofa]
  · rw [fb8, hcofb]
  · exact hEperm.map _

theorem mem_lkp_isSome {κ : Type u} {α : Type v} [DecidableEq κ] {k : κ} {v : α}
    {m : List (κ × α)} (hm : (k, v) ∈ m) : (lkp k m).isSome = true := by
  induction m with
  | nil => simp at hm
  | cons e rest ih =>
    rw [lkp]
    by_cases he : e.1 = k
    · rw [if_pos he]
      rfl
    · rw [if_neg he]
      rcases List.mem_cons.1 hm with h | h
      · exact absurd (by rw [← h]) he
      · exact ih h

theorem disjM_insertAll {mature : MMap} {d : DMap} {mh : Nat} {mkId : Nat → OutputID}
    {l : List (Nat × SiacoinOutput)}
    (ha : ∀ k h, (lkp k mature).isSome = true → lkp k (getBucket h d) = none)
    (hfresh : ∀ ip ∈ l, lkp (mkId ip.1) mature = none) :
    ∀ k h, (lkp k mature).isSome = true →
      lkp k (getBucket h (insertAll mh (l.map fun ip => (mkId ip.1, ip.2)) d)) = none := by
  intro k h hk
  by_cases hkey : ∀ e ∈ l.map (fun ip => (mkId ip.1, ip.2)), e.1 ≠ k
  · rw [lkp_insertAll_of_not_key hkey]
    exact ha k h hk
  · exfalso
    push_neg at hkey
    obtain ⟨e, he, hek⟩ := hkey
    obtain ⟨ip, hip, hipe⟩ := List.mem_map.1 he
    have hfr := hfresh ip hip
    have hek' : mkId ip.1 = k := by
      rw [← hipe] at hek
      exact hek
    rw [hek'] at hfr
    rw [hfr] at hk
    exact Bool.noConfusion hk

/-- Disjointness is preserved by a successful `applyMinerPayouts` in a
verification build: the debug checks certify every payout id is absent
from the mature map, and the mature map itself is untouched. -/
theorem minerPayouts_disj {md : Nat} {cs : ConsensusSet} {bn : blockNode}
    {r : ConsensusSet × blockNode}
    (ha : Disj cs) (hs : applyMinerPayouts true md cs bn = some r) : Disj r.1 := by
  obtain ⟨p1, _, p3, _, _, _, _, _, p9⟩ := applyMinerPayouts_some hs
  intro k h' hk
  rw [p1] at hk
  rw [p3, payoutEntries]
  exact disjM_insertAll ha (p9 rfl) k h' hk

/-- Disjointness is preserved by a successful maturation pass when the
iteration order is a genuine permutation and no identifier occurs in two
distinct buckets. -/
theorem matured_disj {debug : Bool} {md : Nat} {ordm : Bucket → Bucket}
    {cs : ConsensusSet} {bn : blockNode} {r : ConsensusSet × blockNode}
    (hordm : IterOrder ordm) (ha : Disj cs)
    (hb : UniqueAcrossBuckets cs.delayedSiacoinOutputs)
    (hs : applyMaturedSiacoinOutputs debug md ordm cs bn = some r) : Disj r.1 := by
  by_cases hgt : bn.height > md
  · obtain ⟨a1, _, a3, _, _, _, _, _⟩ := applyMaturedSiacoinOutputs_some hgt hs
    intro k h' hk
    rw [a1] at hk
    rw [a3]
    by_cases hkey : ∀ e ∈ ordm (getBucket bn.height cs.delayedSiacoinOutputs), e.1 ≠ k
    · rw [lkp_msetAll_of_not_key hkey] at hk
      by_cases hh : bn.height = h'
      · subst hh
        rw [getBucket_mdel_self]
        rfl
      · rw [getBucket_mdel_ne hh, getBucket_deleteAll_ne hh]
        exact ha k h' hk
    · push_neg at hkey
      obtain ⟨e, he, hek⟩ := hkey
      have hmemb : (e.1, e.2) ∈ getBucket bn.height cs.delayedSiacoinOutputs :=
        (hordm _).mem_iff.1 he
      have hsome : (lkp e.1 (getBucket bn.height cs.delayedSiacoinOutputs)).isSome = true :=
        mem_lkp_isSome hmemb
      by_cases hh : bn.height = h'
      · subst hh
        rw [getBucket_mdel_self]
        rfl
      · rw [getBucket_mdel_ne hh, getBucket_deleteAll_ne hh, ← hek]
        exact hb e.1 bn.height h' hh hsome
  · have hle : bn.height ≤ md := by omega
    rw [applyMaturedSiacoinOutputs_noop hle] at hs
    cases hs
    exact ha

/-- Disjointness is preserved by a successful `applyMissedStorageProof`
in a verification build. -/
theorem missedProof_disj {md : Nat} {cs : ConsensusSet} {bn : blockNode} {fcid : Nat}
    {r : ConsensusSet × blockNode}
    (ha : Disj cs) (hs : applyMissedStorageProof true md cs bn fcid = some r) :
    Disj r.1 := by
  simp only [applyMissedStorageProof] at hs
  split at hs
  · exact Option.noConfusion hs
  · split at hs
    · exact Option.noConfusion hs
    · cases hl : delayedPayoutLoop true (storageProofOutputID fcid true) (bn.height + md)
          cs.siacoinOutputs
          ((lkp fcid cs.fileContracts).getD zeroFileContract).missedProofOutputs.enum
          cs.delayedSiacoinOutputs bn.delayedSiacoinOutputDiffs with
      | none => rw [hl] at hs; exact Option.noConfusion hs
      | some p =>
        rw [hl] at hs
        obtain ⟨h1, _, h3⟩ := delayedPayoutLoop_some hl
        simp only [Option.map_some'] at hs
        cases hs
        intro k h' hk
        show lkp k (getBucket h' p.1) = none
        rw [h1]
        exact disjM_insertAll ha (h3 rfl) k h' hk

/-- Disjointness is preserved by a successful `missedProofFold`. -/
theorem missedProofFold_disj {md : Nat} {ids : List Nat} {cs : ConsensusSet}
    {bn : blockNode} {r : ConsensusSet × blockNode}
    (ha : Disj cs) (hs : missedProofFold true md ids cs bn = some r) : Disj r.1 := by
  induction ids generalizing cs bn with
  | nil =>
    rw [missedProofFold] at hs
    cases hs
    exact ha
  | cons i rest ih =>
    rw [missedProofFold] at hs
    cases hstep : applyMissedStorageProof true md cs bn i with
    | none => rw [hstep] at hs; exact Option.noConfusion hs
    | some r₁ =>
      rw [hstep] at hs
      simp only [Option.some_bind] at hs
      exact ih (missedProof_disj ha hstep) hs

/-- Disjointness is preserved by a successful `applyFileContractMaintenance`. -/
theorem fcm_disj {md : Nat} {ordc : FCMap → FCMap} {cs : ConsensusSet} {bn : blockNode}
    {r : ConsensusSet × blockNode}
    (ha : Disj cs) (hs : applyFileContractMaintenance true md ordc cs bn = some r) :
    Disj r.1 := by
  obtain ⟨ids, _, _, hfold⟩ := applyFileContractMaintenance_some hs
  exact missedProofFold_disj ha hfold

/-- A successful `applyMinerPayouts` preserves bucket uniqueness when the
block's derived payout identifiers are fresh for every bucket. -/
theorem minerPayouts_unique {debug : Bool} {md : Nat} {cs : ConsensusSet} {bn : blockNode}
    {r : ConsensusSet × blockNode}
    (hb : UniqueAcrossBuckets cs.delayedSiacoinOutputs)
    (hcc : PayoutsFresh bn.block cs.delayedSiacoinOutputs)
    (hs : applyMinerPayouts debug md cs bn = some r) :
    UniqueAcrossBuckets r.1.delayedSiacoinOutputs := by
  obtain ⟨_, _, p3, _, _, _, _, _, _⟩ := applyMinerPayouts_some hs
  intro k h₁ h₂ hne hk
  rw [p3] at hk ⊢
  by_cases hkey : ∀ e ∈ payoutEntries bn.block.minerPayoutID bn.block.minerPayouts,
      e.1 ≠ k
  · rw [lkp_insertAll_of_not_key hkey] at hk
    rw [lkp_insertAll_of_not_key hkey]
    exact hb k h₁ h₂ hne hk
  · push_neg at hkey
    obtain ⟨e, he, hek⟩ := hkey
    rw [payoutEntries] at he
    obtain ⟨ip, hip, hipe⟩ := List.mem_map.1 he
    have hkid : bn.block.minerPayoutID ip.1 = k := by
      rw [← hek, ← hipe]
    by_cases h1mh : h₁ = bn.height + md
    · have h2mh : h₂ ≠ bn.height + md := fun hx => hne (h1mh.trans hx.symm)
      rw [getBucket_insertAll_ne h2mh, ← hkid]
      exact hcc ip hip h₂
    · exfalso
      rw [getBucket_insertAll_ne h1mh, ← hkid, hcc ip hip h₁] at hk
      exact Bool.noConfusion hk

/-- Counterexample to C2 as stated: a ledger state satisfying the claim's
only hypothesis — no identifier in both the mature map and any bucket
(the mature map is empty) — on which `applyMaturedSiacoinOutputs` (one of
the listed operations) succeeds yet leaves `txnOutput 0` in the mature map
AND in the bucket at height 9, because the same identifier sat in the
buckets at heights 2 and 9 and only the height-2 copy was drained. -/
theorem claim_C2_counterexample :
    Disj ⟨[], [(2, [(OutputID.txnOutput 0, ⟨1, 1⟩)]),
               (9, [(OutputID.txnOutput 0, ⟨1, 1⟩)])], []⟩ ∧
    applyMaturedSiacoinOutputs true 1 (fun l => l)
      ⟨[], [(2, [(OutputID.txnOutput 0, ⟨1, 1⟩)]),
            (9, [(OutputID.txnOutput 0, ⟨1, 1⟩)])], []⟩
      ⟨⟨0, []⟩, 2, [], [], []⟩ =
      some (⟨[(OutputID.txnOutput 0, ⟨1, 1⟩)],
             [(9, [(OutputID.txnOutput 0, ⟨1, 1⟩)])], []⟩,
        ⟨⟨0, []⟩, 2,
         [⟨DiffDirection.apply, OutputID.txnOutput 0, ⟨1, 1⟩⟩],
         [⟨DiffDirection.revert, OutputID.txnOutput 0, ⟨1, 1⟩, 2⟩], []⟩) ∧
    (lkp (OutputID.txnOutput 0)
      [(OutputID.txnOutput 0, (⟨1, 1⟩ : SiacoinOutput))]).isSome = true ∧
    lkp (OutputID.txnOutput 0)
      (getBucket 9 [(9, [(OutputID.txnOutput 0, (⟨1, 1⟩ : SiacoinOutput))])]) =
      some ⟨1, 1⟩ := by
  refine ⟨?_, by decide, by decide, by decide⟩
  intro k h hk
  simp [lkp] at hk

/-- C2 amended: mature/delayed disjointness is preserved by every
successful maintenance operation in a verification build, provided —
beyond the claim's stated hypothesis — that no identifier occurs in two
distinct delayed buckets, that the block's derived miner payout
identifiers occur in no delayed bucket, and that the bucket iteration
order is a genuine permutation. -/
theorem claim_C2_disjointnessPreserved {md : Nat} {ordm : Bucket → Bucket}
    {ordc : FCMap → FCMap} {cs : ConsensusSet} {bn : blockNode}
    (hordm : IterOrder ordm)
    (ha : Disj cs)
    (hb : UniqueAcrossBuckets cs.delayedSiacoinOutputs)
    (hcc : PayoutsFresh bn.block cs.delayedSiacoinOutputs) :
    (∀ r, applyMinerPayouts true md cs bn = some r → Disj r.1) ∧
    (∀ r, applyMaturedSiacoinOutputs true md ordm cs bn = some r → Disj r.1) ∧
    (∀ r, applyFileContractMaintenance true md ordc cs bn = some r → Disj r.1) ∧
    (∀ r, applyMaintenance true md ordm ordc cs bn = some r → Disj r.1) := by
  refine ⟨fun r hs => minerPayouts_disj ha hs,
    fun r hs => matured_disj hordm ha hb hs,
    fun r hs => fcm_disj ha hs, ?_⟩
  intro r hs
  rw [applyMaintenance] at hs
  cases h1 : applyMinerPayouts true md cs bn with
  | none => rw [h1] at hs; exact Option.noConfusion hs
  | some r₁ =>
    rw [h1] at hs
    simp only [Option.some_bind] at hs
    cases h2 : applyMaturedSiacoinOutputs true md ordm r₁.1 r₁.2 with
    | none => rw [h2] at hs; exact Option.noConfusion hs
    | some r₂ =>
      rw [h2] at hs
      simp only [Option.some_bind] at hs
      have ha₁ : Disj r₁.1 := minerPayouts_disj ha h1
      have hb₁ : UniqueAcrossBuckets r₁.1.delayedSiacoinOutputs :=
        minerPayouts_unique hb hcc h1
      have ha₂ : Disj r₂.1 := matured_disj hordm ha₁ hb₁ h2
      exact fcm_disj ha₂ hs

/-- Witness for the amended C2: a ledger with one mature output, an empty
delayed index and one live contract, at height 4 with maturity delay 1. -/
theorem claim_C2_disjointnessPreserved_witness :
    (∀ r, applyMinerPayouts true 1
      ⟨[(OutputID.txnOutput 9, ⟨5, 5⟩)], [], [(1, ⟨9, []⟩)]⟩
      ⟨⟨3, [⟨8, 8⟩]⟩, 4, [], [], []⟩ = some r → Disj r.1) ∧
    (∀ r, applyMaturedSiacoinOutputs true 1 (fun l => l)
      ⟨[(OutputID.txnOutput 9, ⟨5, 5⟩)], [], [(1, ⟨9, []⟩)]⟩
      ⟨⟨3, [⟨8, 8⟩]⟩, 4, [], [], []⟩ = some r → Disj r.1) ∧
    (∀ r, applyFileContractMaintenance true 1 (fun l => l)
      ⟨[(OutputID.txnOutput 9, ⟨5, 5⟩)], [], [(1, ⟨9, []⟩)]⟩
      ⟨⟨3, [⟨8, 8⟩]⟩, 4, [], [], []⟩ = some r → Disj r.1) ∧
    (∀ r, applyMaintenance true 1 (fun l => l) (fun l => l)
      ⟨[(OutputID.txnOutput 9, ⟨5, 5⟩)], [], [(1, ⟨9, []⟩)]⟩
      ⟨⟨3, [⟨8, 8⟩]⟩, 4, [], [], []⟩ = some r → Disj r.1) := by
  exact claim_C2_disjointnessPreserved
    (fun l => List.Perm.refl l)
    (fun k h _ => rfl)
    (fun k h₁ h₂ _ hk => Bool.noConfusion hk)
    (fun ip _ h => rfl)

/-- Counterexample to C3 as stated: two runs of `applyMaintenance` on the
identical block node and identical ledger state, whose bucket iteration
orders are both permutations of the bucket (all Go guarantees), succeed
but produce diff logs that are NOT identical entry for entry in identical
order: the bucket at height 2 holds two outputs and the two runs record
their maturation diffs in opposite orders. -/
theorem claim_C3_counterexample :
    applyMaintenance true 1 (fun l => l) (fun l => l)
      ⟨[], [(2, [(OutputID.txnOutput 0, ⟨1, 1⟩), (OutputID.txnOutput 1, ⟨2, 2⟩)])], []⟩
      ⟨⟨0, []⟩, 2, [], [], []⟩ =
      some (⟨[(OutputID.txnOutput 1, ⟨2, 2⟩), (OutputID.txnOutput 0, ⟨1, 1⟩)], [], []⟩,
        ⟨⟨0, []⟩, 2,
          [⟨DiffDirection.apply, OutputID.txnOutput 0, ⟨1, 1⟩⟩,
           ⟨DiffDirection.apply, OutputID.txnOutput 1, ⟨2, 2⟩⟩],
          [⟨DiffDirection.revert, OutputID.txnOutput 0, ⟨1, 1⟩, 2⟩,
           ⟨DiffDirection.revert, OutputID.txnOutput 1, ⟨2, 2⟩, 2⟩],
          []⟩) ∧
    applyMaintenance true 1 (fun l => List.reverse l) (fun l => l)
      ⟨[], [(2, [(OutputID.txnOutput 0, ⟨1, 1⟩), (OutputID.txnOutput 1, ⟨2, 2⟩)])], []⟩
      ⟨⟨0, []⟩, 2, [], [], []⟩ =
      some (⟨[(OutputID.txnOutput 0, ⟨1, 1⟩), (OutputID.txnOutput 1, ⟨2, 2⟩)], [], []⟩,
        ⟨⟨0, []⟩, 2,
          [⟨DiffDirection.apply, OutputID.txnOutput 1, ⟨2, 2⟩⟩,
           ⟨DiffDirection.apply, OutputID.txnOutput 0, ⟨1, 1⟩⟩],
          [⟨DiffDirection.revert, OutputID.txnOutput 1, ⟨2, 2⟩, 2⟩,
           ⟨DiffDirection.revert, OutputID.txnOutput 0, ⟨1, 1⟩, 2⟩],
          []⟩) ∧
    (List.reverse [(OutputID.txnOutput 0, (⟨1, 1⟩ : SiacoinOutput)),
        (OutputID.txnOutput 1, ⟨2, 2⟩)]).Perm
      [(OutputID.txnOutput 0, (⟨1, 1⟩ : SiacoinOutput)), (OutputID.txnOutput 1, ⟨2, 2⟩)] ∧
    ([⟨DiffDirection.apply, OutputID.txnOutput 0, ⟨1, 1⟩⟩,
      ⟨DiffDirection.apply, OutputID.txnOutput 1, ⟨2, 2⟩⟩] : List SiacoinOutputDiff) ≠
      [⟨DiffDirection.apply, OutputID.txnOutput 1, ⟨2, 2⟩⟩,
       ⟨DiffDirection.apply, OutputID.txnOutput 0, ⟨1, 1⟩⟩] ∧
    ([⟨DiffDirection.revert, OutputID.txnOutput 0, ⟨1, 1⟩, 2⟩,
      ⟨DiffDirection.revert, OutputID.txnOutput 1, ⟨2, 2⟩, 2⟩] :
        List DelayedSiacoinOutputDiff) ≠
      [⟨DiffDirection.revert, OutputID.txnOutput 1, ⟨2, 2⟩, 2⟩,
       ⟨DiffDirection.revert, OutputID.txnOutput 0, ⟨1, 1⟩, 2⟩] := by
  refine ⟨by decide, by decide, by decide, by decide, by decide⟩

/-- C3 amended: the diff logs of `applyMaintenance` are not a
deterministic function of the block node and ledger state alone — they
depend on the map iteration order the Go runtime picks — but any two
successful runs on identical inputs (and a duplicate-free contract map)
produce the same three diff multisets: each pair of logs is a
permutation of the other, with entries of identical content. -/
theorem claim_C3_logsPermutation {debug : Bool} {md : Nat}
    {ordm₁ ordm₂ : Bucket → Bucket} {ordc₁ ordc₂ : FCMap → FCMap}
    {cs : ConsensusSet} {bn : blockNode} {r₁ r₂ : ConsensusSet × blockNode}
    (hordm₁ : IterOrder ordm₁) (hordm₂ : IterOrder ordm₂)
    (hordc₁ : IterOrder ordc₁) (hordc₂ : IterOrder ordc₂)
    (hfwf : keysNodup cs.fileContracts)
    (hs₁ : applyMaintenance debug md ordm₁ ordc₁ cs bn = some r₁)
    (hs₂ : applyMaintenance debug md ordm₂ ordc₂ cs bn = some r₂) :
    r₁.2.siacoinOutputDiffs.Perm r₂.2.siacoinOutputDiffs ∧
    r₁.2.delayedSiacoinOutputDiffs.Perm r₂.2.delayedSiacoinOutputDiffs ∧
    r₁.2.fileContractDiffs.Perm r₂.2.fileContractDiffs := by
  rw [applyMaintenance] at hs₁ hs₂
  cases h1 : applyMinerPayouts debug md cs bn with
  | none => rw [h1] at hs₁; exact Option.noConfusion hs₁
  | some ra =>
    rw [h1] at hs₁ hs₂
    simp only [Option.some_bind] at hs₁ hs₂
    cases h2a : applyMaturedSiacoinOutputs debug md ordm₁ ra.1 ra.2 with
    | none => rw [h2a] at hs₁; exact Option.noConfusion hs₁
    | some rba =>
      rw [h2a] at hs₁
      simp only [Option.some_bind] at hs₁
      cases h2b : applyMaturedSiacoinOutputs debug md ordm₂ ra.1 ra.2 with
      | none => rw [h2b] at hs₂; exact Option.noConfusion hs₂
      | some rbb =>
        rw [h2b] at hs₂
        simp only [Option.some_bind] at hs₂
        obtain ⟨p1, p2, p3, p4, p5, p6, p7, p8, _⟩ := applyMinerPayouts_some h1
        obtain ⟨Sa, Sb, Aa, Ab, hSa, hSb, hSp, hAa, hAb, hAp, hfca, hfcb,
          hha, hhb, hfda, hfdb⟩ := matured_log_perm hordm₁ hordm₂ h2a h2b
        have hfweq : keysNodup rba.1.fileContracts := by
          rw [hfca, p2]
          exact hfwf
        obtain ⟨ga, gb, Ca, Cb, Fa, Fb, hCa, hCb, hCp, hFa, hFb, hFp⟩ :=
          fcm_log_perm hordc₁ hordc₂ (by rw [hfca, hfcb]) (by rw [hha, hhb]) hfweq
            hs₁ hs₂
        refine ⟨?_, ?_, ?_⟩
        · rw [ga, gb, hSa, hSb]
          exact List.Perm.append_left _ hSp
        · rw [hCa, hCb, hAa, hAb, List.append_assoc, List.append_assoc]
          exact List.Perm.append_left _ (hAp.append hCp)
        · rw [hFa, hFb, hfda, hfdb]
          exact List.Perm.append_left _ hFp

/-- Witness for the amended C3: two runs on identical inputs, one
draining the height-2 bucket in map order, the other in reverse. -/
theorem claim_C3_logsPermutation_witness :
    ([⟨DiffDirection.apply, OutputID.txnOutput 0, ⟨1, 1⟩⟩,
      ⟨DiffDirection.apply, OutputID.txnOutput 1, ⟨2, 2⟩⟩] :
        List SiacoinOutputDiff).Perm
      [⟨DiffDirection.apply, OutputID.txnOutput 1, ⟨2, 2⟩⟩,
       ⟨DiffDirection.apply, OutputID.txnOutput 0, ⟨1, 1⟩⟩] ∧
    ([⟨DiffDirection.revert, OutputID.txnOutput 0, ⟨1, 1⟩, 2⟩,
      ⟨DiffDirection.revert, OutputID.txnOutput 1, ⟨2, 2⟩, 2⟩] :
        List DelayedSiacoinOutputDiff).Perm
      [⟨DiffDirection.revert, OutputID.txnOutput 1, ⟨2, 2⟩, 2⟩,
       ⟨DiffDirection.revert, OutputID.txnOutput 0, ⟨1, 1⟩, 2⟩] ∧
    ([] : List FileContractDiff).Perm ([] : List FileContractDiff) := by
  exact @claim_C3_logsPermutation true 1
    (fun l => l) (fun l => List.reverse l) (fun l => l) (fun l => l)
    ⟨[], [(2, [(OutputID.txnOutput 0, ⟨1, 1⟩), (OutputID.txnOutput 1, ⟨2, 2⟩)])], []⟩
    ⟨⟨0, []⟩, 2, [], [], []⟩
    (⟨[(OutputID.txnOutput 1, ⟨2, 2⟩), (OutputID.txnOutput 0, ⟨1, 1⟩)], [], []⟩,
     ⟨⟨0, []⟩, 2,
      [⟨DiffDirection.apply, OutputID.txnOutput 0, ⟨1, 1⟩⟩,
       ⟨DiffDirection.apply, OutputID.txnOutput 1, ⟨2, 2⟩⟩],
      [⟨DiffDirection.revert, OutputID.txnOutput 0, ⟨1, 1⟩, 2⟩,
       ⟨DiffDirection.revert, OutputID.txnOutput 1, ⟨2, 2⟩, 2⟩], []⟩)
    (⟨[(OutputID.txnOutput 0, ⟨1, 1⟩), (OutputID.txnOutput 1, ⟨2, 2⟩)], [], []⟩,
     ⟨⟨0, []⟩, 2,
      [⟨DiffDirection.apply, OutputID.txnOutput 1, ⟨2, 2⟩⟩,
       ⟨DiffDirection.apply, OutputID.txnOutput 0, ⟨1, 1⟩⟩],
      [⟨DiffDirection.revert, OutputID.txnOutput 1, ⟨2, 2⟩, 2⟩,
       ⟨DiffDirection.revert, OutputID.txnOutput 0, ⟨1, 1⟩, 2⟩], []⟩)
    (fun l => List.Perm.refl l) (fun l => List.reverse_perm l)
    (fun l => List.Perm.refl l) (fun l => List.Perm.refl l)
    List.nodup_nil rfl rfl

/-- A payout loop in a verification build aborts whenever any listed
entry's derived identifier is already in the target bucket or in the
mature map: the inserts performed for earlier entries never remove a
binding, so the collision is still visible when the entry is reached. -/
theorem delayedPayoutLoop_abort (mkId : Nat → OutputID) (mh : Nat) (mature : MMap)
    {ip : Nat × SiacoinOutput} {l : List (Nat × SiacoinOutput)} (hip : ip ∈ l) :
    ∀ (d : DMap) (log : List DelayedSiacoinOutputDiff),
      ((lkp (mkId ip.1) (getBucket mh d)).isSome = true ∨
        (lkp (mkId ip.1) mature).isSome = true) →
      delayedPayoutLoop true mkId mh mature l d log = none := by
  induction l with
  | nil => exact absurd hip (List.not_mem_nil ip)
  | cons ip₀ rest ih =>
    intro d log hviol
    simp only [delayedPayoutLoop]
    rcases List.mem_cons.1 hip with hip0 | hiprest
    · have hc : (true && ((lkp (mkId ip₀.1) (getBucket mh d)).isSome ||
          (lkp (mkId ip₀.1) mature).isSome)) = true := by
        simp only [Bool.true_and, Bool.or_eq_true]
        rw [← hip0]
        exact hviol
      rw [if_pos hc]
    · by_cases hc : (true && ((lkp (mkId ip₀.1) (getBucket mh d)).isSome ||
          (lkp (mkId ip₀.1) mature).isSome)) = true
      · rw [if_pos hc]
      · rw [if_neg hc]
        apply ih hiprest
        rcases hviol with hb | hm
        · left
          rw [commitD_apply_apply, lkp_getBucket_dInsert]
          by_cases hcc : mh = mh ∧ mkId ip₀.1 = mkId ip.1
          · rw [if_pos hcc]
            rfl
          · rw [if_neg hcc]
            exact hb
        · right
          exact hm

/-- The maturation loop in a verification build aborts whenever any
listed entry's identifier is already in the mature map: earlier inserts
only add bindings, so the collision survives until the entry is
reached. -/
theorem maturedLoop_abort (h : Nat) {e : OutputID × SiacoinOutput}
    {l : List (OutputID × SiacoinOutput)} (hel : e ∈ l) :
    ∀ (mature : MMap) (d : DMap) (slog : List SiacoinOutputDiff)
      (dlog : List DelayedSiacoinOutputDiff),
      (lkp e.1 mature).isSome = true →
      maturedLoop true h l mature d slog dlog = none := by
  induction l with
  | nil => exact absurd hel (List.not_mem_nil e)
  | cons e₀ rest ih =>
    intro mature d slog dlog hviol
    simp only [maturedLoop]
    rcases List.mem_cons.1 hel with he0 | herest
    · have hc : (true && (lkp e₀.1 mature).isSome) = true := by
        simp only [Bool.true_and]
        rw [← he0]
        exact hviol
      rw [if_pos hc]
    · by_cases hc : (true && (lkp e₀.1 mature).isSome) = true
      · rw [if_pos hc]
      · rw [if_neg hc]
        apply ih herest
        rw [commitS_apply_apply, lkp_mset]
        by_cases hk : e₀.1 = e.1
        · rw [if_pos hk]
          rfl
        · rw [if_neg hk]
          exact hviol

/-- The contract scan in a verification build aborts whenever any listed
contract's window ended strictly below the block height. -/
theorem expiredScan_abort {h : Nat} {e : Nat × FileContract} {l : FCMap}
    (hel : e ∈ l) (hlt : e.2.windowEnd < h) :
    expiredScan true h l = none := by
  induction l with
  | nil => exact absurd hel (List.not_mem_nil e)
  | cons e₀ rest ih =>
    rw [expiredScan]
    rcases List.mem_cons.1 hel with he0 | herest
    · have hc : (true && decide (e₀.2.windowEnd < h)) = true := by
        rw [← he0]
        simp only [Bool.true_and]
        exact decide_eq_true hlt
      rw [if_pos hc]
    · by_cases hc : (true && decide (e₀.2.windowEnd < h)) = true
      · rw [if_pos hc]
      · rw [if_neg hc, ih herest]
        rfl

/-- C9: in verification builds (debug on) every listed precondition
violation aborts with a panic (modelled as `none`) instead of returning a
recoverable error — the operations have no error return channel at all:
any payout, at any position of the payout list, whose derived id is
already in the target bucket or in the mature map; any entry of the
maturing bucket, at any position of the iteration order, whose id is
already in the mature map; a missing contract; a contract whose window
does not end at the block height; any missed-proof payout, at any
position of an expiring contract's list, whose derived id is already in
the target bucket or in the mature map; any contract, at any position of
the scan's iteration order, whose window ended below the block height;
and a bucket left non-empty after draining. -/
theorem claim_C9_fatalAborts {md : Nat} {cs : ConsensusSet} {bn : blockNode} :
    (∀ ip ∈ bn.block.minerPayouts.enum,
      ((lkp (bn.block.minerPayoutID ip.1)
          (getBucket (bn.height + md) cs.delayedSiacoinOutputs)).isSome = true ∨
       (lkp (bn.block.minerPayoutID ip.1) cs.siacoinOutputs).isSome = true) →
      applyMinerPayouts true md cs bn = none) ∧
    (∀ ordm e, bn.height > md →
      e ∈ ordm (getBucket bn.height cs.delayedSiacoinOutputs) →
      (lkp e.1 cs.siacoinOutputs).isSome = true →
      applyMaturedSiacoinOutputs true md ordm cs bn = none) ∧
    (∀ fcid, lkp fcid cs.fileContracts = none →
      applyMissedStorageProof true md cs bn fcid = none) ∧
    (∀ fcid fc, lkp fcid cs.fileContracts = some fc → fc.windowEnd ≠ bn.height →
      applyMissedStorageProof true md cs bn fcid = none) ∧
    (∀ fcid fc, lkp fcid cs.fileContracts = some fc → fc.windowEnd = bn.height →
      ∀ ip ∈ fc.missedProofOutputs.enum,
      ((lkp (storageProofOutputID fcid true ip.1)
          (getBucket (bn.height + md) cs.delayedSiacoinOutputs)).isSome = true ∨
       (lkp (storageProofOutputID fcid true ip.1) cs.siacoinOutputs).isSome = true) →
      applyMissedStorageProof true md cs bn fcid = none) ∧
    (∀ ordc e, e ∈ ordc cs.fileContracts → e.2.windowEnd < bn.height →
      applyFileContractMaintenance true md ordc cs bn = none) ∧
    (∀ ordm, bn.height > md →
      ordm (getBucket bn.height cs.delayedSiacoinOutputs) = [] →
      getBucket bn.height cs.delayedSiacoinOutputs ≠ [] →
      applyMaturedSiacoinOutputs true md ordm cs bn = none) := by
  refine ⟨?_, ?_, ?_, ?_, ?_, ?_, ?_⟩
  · intro ip hip hcol
    rw [applyMinerPayouts,
      delayedPayoutLoop_abort bn.block.minerPayoutID (bn.height + md)
        cs.siacoinOutputs hip cs.delayedSiacoinOutputs bn.delayedSiacoinOutputDiffs hcol]
    rfl
  · intro ordm e hgt hel hmat
    have hd : decide (bn.height > md) = true := decide_eq_true hgt
    rw [applyMaturedSiacoinOutputs, hd, Bool.not_true, if_neg Bool.false_ne_true,
      maturedLoop_abort bn.height hel cs.siacoinOutputs cs.delayedSiacoinOutputs
        bn.siacoinOutputDiffs bn.delayedSiacoinOutputDiffs hmat]
    rfl
  · intro fcid habs
    rw [applyMissedStorageProof]
    simp [habs]
  · intro fcid fc hlkp hne
    rw [applyMissedStorageProof]
    simp [hlkp, hne]
  · intro fcid fc hlkp hwend ip hip hcol
    simp only [applyMissedStorageProof, hlkp, Option.isSome_some, Option.getD_some,
      Bool.not_true, Bool.and_false, Bool.false_eq_true, if_false, hwend,
      beq_self_eq_true]
    rw [delayedPayoutLoop_abort (storageProofOutputID fcid true) (bn.height + md)
      cs.siacoinOutputs hip cs.delayedSiacoinOutputs bn.delayedSiacoinOutputDiffs hcol]
    rfl
  · intro ordc e hel hlt
    rw [applyFileContractMaintenance, expiredScan_abort hel hlt]
    rfl
  · intro ordm hgt hord hne
    have hd : decide (bn.height > md) = true := decide_eq_true hgt
    have hlen : (getBucket bn.height cs.delayedSiacoinOutputs).length ≠ 0 :=
      fun h => hne (List.length_eq_zero.1 h)
    rw [applyMaturedSiacoinOutputs, hd, Bool.not_true, if_neg Bool.false_ne_true,
      hord, maturedLoop]
    simp only [Option.some_bind]
    rw [if_pos (by simp [hlen])]

/-- Witness for C9: the seven abort scenarios instantiated on one
concrete ledger at height 4 with maturity delay 1; the violating payout
sits at the second position of the payout list, and the violating
contract at the first of two scan positions. -/
theorem claim_C9_fatalAborts_witness :
    applyMinerPayouts true 1
      ⟨[(OutputID.minerPayoutOf 1 1, ⟨5, 5⟩), (OutputID.txnOutput 0, ⟨6, 6⟩),
          (OutputID.storageProofOutputOf 8 true 0, ⟨2, 2⟩)],
        [(4, [(OutputID.txnOutput 0, ⟨6, 6⟩)])], [(2, ⟨3, []⟩), (8, ⟨4, [⟨2, 2⟩]⟩)]⟩
      ⟨⟨1, [⟨4, 4⟩, ⟨5, 5⟩]⟩, 4, [], [], []⟩ = none ∧
    applyMaturedSiacoinOutputs true 1 (fun l => l)
      ⟨[(OutputID.minerPayoutOf 1 1, ⟨5, 5⟩), (OutputID.txnOutput 0, ⟨6, 6⟩),
          (OutputID.storageProofOutputOf 8 true 0, ⟨2, 2⟩)],
        [(4, [(OutputID.txnOutput 0, ⟨6, 6⟩)])], [(2, ⟨3, []⟩), (8, ⟨4, [⟨2, 2⟩]⟩)]⟩
      ⟨⟨1, [⟨4, 4⟩, ⟨5, 5⟩]⟩, 4, [], [], []⟩ = none ∧
    applyMissedStorageProof true 1
      ⟨[(OutputID.minerPayoutOf 1 1, ⟨5, 5⟩), (OutputID.txnOutput 0, ⟨6, 6⟩),
          (OutputID.storageProofOutputOf 8 true 0, ⟨2, 2⟩)],
        [(4, [(OutputID.txnOutput 0, ⟨6, 6⟩)])], [(2, ⟨3, []⟩), (8, ⟨4, [⟨2, 2⟩]⟩)]⟩
      ⟨⟨1, [⟨4, 4⟩, ⟨5, 5⟩]⟩, 4, [], [], []⟩ 7 = none ∧
    applyMissedStorageProof true 1
      ⟨[(OutputID.minerPayoutOf 1 1, ⟨5, 5⟩), (OutputID.txnOutput 0, ⟨6, 6⟩),
          (OutputID.storageProofOutputOf 8 true 0, ⟨2, 2⟩)],
        [(4, [(OutputID.txnOutput 0, ⟨6, 6⟩)])], [(2, ⟨3, []⟩), (8, ⟨4, [⟨2, 2⟩]⟩)]⟩
      ⟨⟨1, [⟨4, 4⟩, ⟨5, 5⟩]⟩, 4, [], [], []⟩ 2 = none ∧
    applyMissedStorageProof true 1
      ⟨[(OutputID.minerPayoutOf 1 1, ⟨5, 5⟩), (OutputID.txnOutput 0, ⟨6, 6⟩),
          (OutputID.storageProofOutputOf 8 true 0, ⟨2, 2⟩)],
        [(4, [(OutputID.txnOutput 0, ⟨6, 6⟩)])], [(2, ⟨3, []⟩), (8, ⟨4, [⟨2, 2⟩]⟩)]⟩
      ⟨⟨1, [⟨4, 4⟩, ⟨5, 5⟩]⟩, 4, [], [], []⟩ 8 = none ∧
    applyFileContractMaintenance true 1 (fun l => l)
      ⟨[(OutputID.minerPayoutOf 1 1, ⟨5, 5⟩), (OutputID.txnOutput 0, ⟨6, 6⟩),
          (OutputID.storageProofOutputOf 8 true 0, ⟨2, 2⟩)],
        [(4, [(OutputID.txnOutput 0, ⟨6, 6⟩)])], [(2, ⟨3, []⟩), (8, ⟨4, [⟨2, 2⟩]⟩)]⟩
      ⟨⟨1, [⟨4, 4⟩, ⟨5, 5⟩]⟩, 4, [], [], []⟩ = none ∧
    applyMaturedSiacoinOutputs true 1 (fun _ => [])
      ⟨[(OutputID.minerPayoutOf 1 1, ⟨5, 5⟩), (OutputID.txnOutput 0, ⟨6, 6⟩),
          (OutputID.storageProofOutputOf 8 true 0, ⟨2, 2⟩)],
        [(4, [(OutputID.txnOutput 0, ⟨6, 6⟩)])], [(2, ⟨3, []⟩), (8, ⟨4, [⟨2, 2⟩]⟩)]⟩
      ⟨⟨1, [⟨4, 4⟩, ⟨5, 5⟩]⟩, 4, [], [], []⟩ = none := by
  refine ⟨?_, ?_, ?_, ?_, ?_, ?_, ?_⟩
  · exact (claim_C9_fatalAborts).1 (1, ⟨5, 5⟩) (by decide) (Or.inr (by decide))
  · exact (claim_C9_fatalAborts).2.1 (fun l => l) (OutputID.txnOutput 0, ⟨6, 6⟩)
      (by decide) (by decide) (by decide)
  · exact (claim_C9_fatalAborts).2.2.1 7 (by decide)
  · exact (claim_C9_fatalAborts).2.2.2.1 2 ⟨3, []⟩ (by decide) (by decide)
  · exact (claim_C9_fatalAborts).2.2.2.2.1 8 ⟨4, [⟨2, 2⟩]⟩ (by decide) (by decide)
      (0, ⟨2, 2⟩) (by decide) (Or.inr (by decide))
  · exact (claim_C9_fatalAborts).2.2.2.2.2.1 (fun l => l) (2, ⟨3, []⟩) (by decide)
      (by decide)
  · exact (claim_C9_fatalAborts).2.2.2.2.2.2 (fun _ => []) (by decide) (by decide)
      (by decide)

/-- C10: with the debug checks off, `applyMissedStorageProof` on an
identifier absent from the contract map does not abort: it creates no
delayed outputs, leaves the consensus set (including the contract map)
unchanged, and still appends exactly one `DiffRevert` contract diff
carrying the zero-value contract. -/
theorem claim_C10_missingContractNoDebug {md : Nat} {cs : ConsensusSet}
    {bn : blockNode} {fcid : Nat}
    (habs : lkp fcid cs.fileContracts = none) :
    applyMissedStorageProof false md cs bn fcid =
      some (cs,
        { bn with fileContractDiffs :=
            bn.fileContractDiffs ++ [⟨DiffDirection.revert, fcid, zeroFileContract⟩] }) := by
  rw [applyMissedStorageProof]
  simp only [habs, Bool.false_and, Bool.false_eq_true, if_false, Option.getD_none]
  rw [show zeroFileContract.missedProofOutputs.enum = [] from rfl, delayedPayoutLoop]
  simp only [Option.map_some']
  rw [mdel_eq_self_of_none habs]

/-- Witness for C10: contract id 5 absent from a one-contract map. -/
theorem claim_C10_missingContractNoDebug_witness :
    applyMissedStorageProof false 4
      ⟨[], [], [(3, ⟨9, [⟨7, 7⟩]⟩)]⟩ ⟨⟨0, []⟩, 9, [], [], []⟩ 5 =
      some (⟨[], [], [(3, ⟨9, [⟨7, 7⟩]⟩)]⟩,
        ⟨⟨0, []⟩, 9, [], [], [⟨DiffDirection.revert, 5, zeroFileContract⟩]⟩) :=
  claim_C10_missingContractNoDebug (by decide)

end Sia
